import Mathlib

/-!
Verification development for the Automation-Game simulation engine.

The definitions below are shallow embeddings of the Python source:
  * `Color` and `Color.add`           from `src/colors.py`
  * the tick pipeline `substeps`      from `src/engine.py` (`Level.__init__` / `Level.substep`)
  * `PyBoard` (`get`/`insert`/`remove`) from `src/engine.py` (`Board`)
  * the `Level` phase functions       from `src/engine.py`
  * the wiring-resolution machinery   from `src/entities.py` (`Wirable.resolve_port`)
    and `src/engine.py` (`Level.resolve_wiring_network`)

Python objects are modelled by value records addressed through integer
identities (a `store : Nat → Entity` map), so that Python's reference
semantics (aliasing between `Board.cells` and `Board.type_locs`, in-place
attribute mutation) is represented faithfully.  Fallible operations
(`Board.remove`, which can raise) return an error component alongside the
mutated state, matching the fact that Python raises *after* any mutations
already performed.
-/

/- ------------------------------------------------------------------ -/
/- Color algebra (src/colors.py)                                       -/
/- ------------------------------------------------------------------ -/

/-- The 13 colors of `colors.py`.  Each carries an (R, Y, B) value. -/
inductive Color where
  | RED | RED_ORANGE | ORANGE | YELLOW_ORANGE | YELLOW | YELLOW_GREEN
  | GREEN | BLUE_GREEN | BLUE | BLUE_VIOLET | VIOLET | RED_VIOLET | BROWN
deriving DecidableEq, Repr, Fintype

/-- The (R, Y, B) component tuple of each enum member (`Color.value`). -/
def Color.value : Color → Nat × Nat × Nat
  | .RED           => (4, 0, 0)
  | .RED_ORANGE    => (3, 1, 0)
  | .ORANGE        => (2, 2, 0)
  | .YELLOW_ORANGE => (1, 3, 0)
  | .YELLOW        => (0, 4, 0)
  | .YELLOW_GREEN  => (0, 3, 1)
  | .GREEN         => (0, 2, 2)
  | .BLUE_GREEN    => (0, 1, 3)
  | .BLUE          => (0, 0, 4)
  | .BLUE_VIOLET   => (1, 0, 3)
  | .VIOLET        => (2, 0, 2)
  | .RED_VIOLET    => (3, 0, 1)
  | .BROWN         => (1, 1, 1)

/-- Reverse lookup `Color(tuple)`: the enum member with the given value,
if any (the Python constructor raises `ValueError` when absent, hence
`Option`). -/
def Color.ofValue (v : Nat × Nat × Nat) : Option Color :=
  (List.find? (fun c => Color.value c = v) [Color.RED, Color.RED_ORANGE,
    Color.ORANGE, Color.YELLOW_ORANGE, Color.YELLOW, Color.YELLOW_GREEN,
    Color.GREEN, Color.BLUE_GREEN, Color.BLUE, Color.BLUE_VIOLET,
    Color.VIOLET, Color.RED_VIOLET, Color.BROWN])

/-- Absolute difference on `Nat`, as used for the L1 distance in
`Color.adjacent`. -/
def natAbsDiff (a b : Nat) : Nat := (a - b) + (b - a)

/-- `Color.adjacent`: L1 distance of the RYB tuples is at most 2. -/
def Color.adjacent (c o : Color) : Bool :=
  natAbsDiff c.value.1 o.value.1 + natAbsDiff c.value.2.1 o.value.2.1 +
    natAbsDiff c.value.2.2 o.value.2.2 ≤ 2

/-- The index Python's `max([0, 1, 2], key=...)` selects: a left-to-right
scan keeping the current element only when strictly larger. -/
def maxIndex3 (m0 m1 m2 : Nat) : Nat :=
  if m1 > m0 then (if m2 > m1 then 2 else 1)
  else (if m2 > m0 then 2 else 0)

/-- Bump component `i` of the midpoint by one
(`midpoint[max(...)] += 1`). -/
def bumpAt (v : Nat × Nat × Nat) (i : Nat) : Nat × Nat × Nat :=
  if i = 0 then (v.1 + 1, v.2.1, v.2.2)
  else if i = 1 then (v.1, v.2.1 + 1, v.2.2)
  else (v.1, v.2.1, v.2.2 + 1)

/-- `Color.__add__` (the `mix` operation).  The final enum lookup is
`Option`-valued because Python's `Color(tuple(midpoint))` can raise;
closure (theorem `C1` below) shows the lookup in fact always succeeds. -/
def Color.add (c o : Color) : Option Color :=
  let v1 := c.value
  let v2 := o.value
  -- if addends contain all three components, make brown
  if v1.1 + v2.1 > 0 ∧ v1.2.1 + v2.2.1 > 0 ∧ v1.2.2 + v2.2.2 > 0 then
    some Color.BROWN
  else if c.adjacent o then
    -- return the tertiary one
    some (if v1.1 = 1 ∨ v1.2.1 = 1 ∨ v1.2.2 = 1 then c else o)
  else
    -- average RYB components, shifting towards tertiary when off-lattice
    let m : Nat × Nat × Nat :=
      ((v1.1 + v2.1) / 2, (v1.2.1 + v2.2.1) / 2, (v1.2.2 + v2.2.2) / 2)
    let m2 := if m.1 + m.2.1 + m.2.2 < 4
              then bumpAt m (maxIndex3 m.1 m.2.1 m.2.2) else m
    Color.ofValue m2

/-- Total mixing operation used by the engine embedding.  The `BROWN`
default is dead code: `Color.add` always returns `some` (closure). -/
def mixColor (c o : Color) : Color := (Color.add c o).getD Color.BROWN

/- ------------------------------------------------------------------ -/
/- The tick pipeline (src/engine.py, Level.__init__ / Level.substep)   -/
/- ------------------------------------------------------------------ -/

/-- Names for the phase functions that appear in `Level.substeps`. -/
inductive PhaseTag where
  | applyMerges | applyBoostpadRedirects | applyTargets | checkWon
  | resetWiringNetwork | applyResourceExtractors | applyTranslations
  | applySensors | resolveWiringNetwork | applyPistons
deriving DecidableEq, Repr, Fintype

/-- The `Level.substeps` list built in `Level.__init__`: substep 0 is the
main motion step, substep 1 the reactive electronics step.
(`applyBoostpadRedirects` names the source's `apply_rotations`.) -/
def levelSubsteps : List (List PhaseTag) :=
  [[PhaseTag.applyMerges, PhaseTag.applyBoostpadRedirects,
    PhaseTag.applyTargets, PhaseTag.checkWon,
    PhaseTag.resetWiringNetwork, PhaseTag.applyResourceExtractors,
    PhaseTag.applyTranslations],
   [PhaseTag.applyMerges, PhaseTag.applySensors,
    PhaseTag.resolveWiringNetwork, PhaseTag.applyPistons]]

/-- One full tick: `Level.substep` runs the substeps in order, advancing
`step_count` after the last one, so a full tick executes the
concatenation of both substep lists. -/
def fullTick : List PhaseTag := levelSubsteps.flatten

/- ------------------------------------------------------------------ -/
/- The Board (src/engine.py, class Board)                              -/
/- ------------------------------------------------------------------ -/

/-- The error kinds `Board.remove` can raise: the explicit
`ValueError("Cannot remove non-present entities")` pre-check, Python's
`list.remove` `ValueError`, and `set.remove`'s `KeyError`. -/
inductive BErr where
  | notPresent | listRemoveErr | setRemoveErr
deriving DecidableEq, Repr

/-- Association-list lookup (the `dict` access `cells[pos]`). -/
def lookupA {κ τ : Type} [DecidableEq κ] (k : κ) : List (κ × τ) → Option τ
  | [] => none
  | p :: rest => if p.1 = k then some p.2 else lookupA k rest

/-- Replace the value stored under key `k` (the `dict` entry update).
Keys are unique in every reachable board, so mapping all matches is the
in-place list mutation of the source. -/
def setA {κ τ : Type} [DecidableEq κ] (k : κ) (v : τ) :
    List (κ × τ) → List (κ × τ) :=
  fun l => l.map (fun p => if p.1 = k then (p.1, v) else p)

/-- `Board`: `cells` is the `pos -> entity list` dict (insertion
ordered, as Python dicts are); `typeLocs` is the union of the
`type_locs` sets as `(pos, entity)` pairs (each entity lives in exactly
one per-type bucket, so one list loses no information). -/
structure PyBoard (α : Type) where
  cells : List ((Int × Int) × List α)
  typeLocs : List ((Int × Int) × α)
deriving DecidableEq, Repr

/-- `Board.get`: all entities at the location, empty if absent. -/
def PyBoard.get {α : Type} [DecidableEq α] (b : PyBoard α)
    (pos : Int × Int) : List α :=
  (lookupA pos b.cells).getD []

/-- `Board.get_cell_count`: the number of stored cells (documented as
"the number of non-empty cells"). -/
def PyBoard.getCellCount {α : Type} (b : PyBoard α) : Nat := b.cells.length

/-- `set.add` on a `type_locs` bucket: append the pair unless present. -/
def tlAdd {α : Type} [DecidableEq α] (tl : List ((Int × Int) × α))
    (pos : Int × Int) (e : α) : List ((Int × Int) × α) :=
  if (pos, e) ∈ tl then tl else tl ++ [(pos, e)]

/-- `Board.insert`: create the cell if missing, extend it with the
entities, and record each entity in `type_locs`. -/
def PyBoard.insert {α : Type} [DecidableEq α] (b : PyBoard α)
    (pos : Int × Int) (es : List α) : PyBoard α :=
  let cells1 := if (lookupA pos b.cells).isSome then b.cells
                else b.cells ++ [(pos, [])]
  { cells := setA pos ((lookupA pos cells1).getD [] ++ es) cells1,
    typeLocs := es.foldl (fun tl e => tlAdd tl pos e) b.typeLocs }

/-- The mutation loop of `Board.remove`: for each entity in order,
`cells[pos].remove(e)` then `type_locs[type(e)].remove((pos, e))`.
Either `remove` can raise; mutations performed before the raise are kept
(Python mutates the live containers). -/
def removeLoop {α : Type} [DecidableEq α] (pos : Int × Int) :
    List α → List ((Int × Int) × α) → List α →
      Option BErr × List α × List ((Int × Int) × α)
  | cell, tl, [] => (none, cell, tl)
  | cell, tl, e :: rest =>
    if e ∈ cell then
      let cell2 := cell.erase e
      if (pos, e) ∈ tl then removeLoop pos cell2 (tl.erase (pos, e)) rest
      else (some BErr.setRemoveErr, cell2, tl)
    else (some BErr.listRemoveErr, cell, tl)

/-- `Board.remove`: raise "Cannot remove non-present entities" when the
cell is absent or any listed entity is missing from it, else run the
mutation loop.  The board component of the result is the state of the
board when the call returns or raises; note that the (possibly emptied)
cell entry is written back and never pruned. -/
def PyBoard.remove {α : Type} [DecidableEq α] (b : PyBoard α)
    (pos : Int × Int) (es : List α) : Option BErr × PyBoard α :=
  match lookupA pos b.cells with
  | none => (some BErr.notPresent, b)
  | some cell =>
    if es.all (fun e => decide (e ∈ cell)) then
      let r := removeLoop pos cell b.typeLocs es
      (r.1, { cells := setA pos r.2.1 b.cells, typeLocs := r.2.2 })
    else (some BErr.notPresent, b)

/-- The pre-check of `Board.remove` succeeds: the cell exists and every
listed entity occurs in it. -/
def RemovePre {α : Type} [DecidableEq α] (b : PyBoard α) (pos : Int × Int)
    (es : List α) : Prop :=
  (lookupA pos b.cells).isSome = true ∧ ∀ e ∈ es, e ∈ b.get pos

/-- `cells`/`type_locs` are in sync: every entity stored in a cell has
its `(pos, entity)` pair in `type_locs`.  `Board.__init__` establishes
this and `insert` preserves it. -/
def BoardSync {α : Type} (b : PyBoard α) : Prop :=
  ∀ pc ∈ b.cells, ∀ e ∈ pc.2, (pc.1, e) ∈ b.typeLocs

/-- No cell stores the same entity (identity) twice. -/
def CellsNodup {α : Type} (b : PyBoard α) : Prop :=
  ∀ pc ∈ b.cells, pc.2.Nodup

/- ------------------------------------------------------------------ -/
/- Entities and the Level phase functions (src/entities.py, engine.py) -/
/- ------------------------------------------------------------------ -/

/-- `Direction` (src/helpers.py). -/
inductive Dir where
  | NONE | NORTH | EAST | SOUTH | WEST
deriving DecidableEq, Repr

/-- The vector of a direction (`V2` value of the enum member). -/
def Dir.vec : Dir → Int × Int
  | .NONE => (0, 0)
  | .NORTH => (0, -1)
  | .EAST => (1, 0)
  | .SOUTH => (0, 1)
  | .WEST => (-1, 0)

/-- Component-wise position addition (`V2.__add__`). -/
def posAdd (p q : Int × Int) : Int × Int := (p.1 + q.1, p.2 + q.2)

/-- The concrete entity kinds of `entities.py` with their mutable state.
`activated` is `Option Bool` because Python initialises it to `None`.
`period`/`phase`/`count` are Python ints, hence `Int`. -/
inductive Entity where
  | barrier (locked : Bool)
  | barrel (color : Color) (velocity : Dir) (locked : Bool)
  | resourceTile (color : Color)
  | resourceExtractor (orientation : Dir) (period : Int) (phase : Int)
      (locked : Bool)
  | boostpad (orientation : Dir) (locked : Bool)
  | target (color : Color) (count : Int)
  | piston (orientation : Dir) (activated : Option Bool) (locked : Bool)
  | sensor (orientation : Dir) (activated : Option Bool) (locked : Bool)
  | pressurePlate (activated : Option Bool) (locked : Bool)
deriving DecidableEq, Repr

/-- `moves` class flag: only `Barrel` sets `moves = True`. -/
def Entity.moves : Entity → Bool
  | .barrel _ _ _ => true
  | _ => false

/-- `merges` class flag: only `Barrel` sets `merges = True`. -/
def Entity.merges : Entity → Bool
  | .barrel _ _ _ => true
  | _ => false

/-- `stops` class flag: `Block` subclasses stop movement except that
`Barrel` overrides `stops = False`. -/
def Entity.stops : Entity → Bool
  | .barrier _ => true
  | .resourceExtractor _ _ _ _ => true
  | .piston _ _ _ => true
  | .sensor _ _ _ => true
  | _ => false

def Entity.isExtractor : Entity → Bool
  | .resourceExtractor _ _ _ _ => true
  | _ => false

def Entity.isBarrel : Entity → Bool
  | .barrel _ _ _ => true
  | _ => false

def Entity.isTarget : Entity → Bool
  | .target _ _ => true
  | _ => false

def Entity.isPiston : Entity → Bool
  | .piston _ _ _ => true
  | _ => false

/-- The color of a `ResourceTile` (`isinstance(d, ResourceTile)` plus
reading `d.color`). -/
def Entity.tileColor : Entity → Option Color
  | .resourceTile c => some c
  | _ => none

/-- The `count` attribute of a `Target`. -/
def Entity.targetCount : Entity → Int
  | .target _ n => n
  | _ => 0

/-- `d.velocity = o`: velocity assignment, performed only on `moves`
entities, i.e. Barrels. -/
def Entity.setVelocity : Entity → Dir → Entity
  | .barrel c _ lk, o => .barrel c o lk
  | e, _ => e

/-- `Barrel.__add__`: a fresh Barrel with the mixed color and the
constructor defaults `velocity=Direction.NONE`, `locked=False`.  The
engine only ever adds mergeable entities, i.e. Barrels. -/
def Entity.add (a b : Entity) : Entity :=
  match a, b with
  | .barrel c1 _ _, .barrel c2 _ _ => .barrel (mixColor c1 c2) Dir.NONE false
  | _, _ => a

/-- `sum(mergable[1:], mergable[0])`: left fold of `Barrel.__add__`. -/
def mergeResult (e : Entity) (es : List Entity) : Entity :=
  es.foldl Entity.add e

/-- The Level simulation state: the board holds entity identities, the
`store` maps each identity to the entity's current attribute record
(Python's heap), `nextId` allocates fresh identities, and `step_count`
and `won` are the `Level` fields of the same names. -/
structure EngineState where
  board : PyBoard Nat
  store : Nat → Entity
  nextId : Nat
  stepCount : Int
  won : Bool

/-- Pointwise store update (an attribute assignment / fresh object). -/
def updateStore (st : Nat → Entity) (i : Nat) (e : Entity) :
    Nat → Entity :=
  fun j => if j = i then e else st j

/-- `Level.__init__`: `step_count = 0`, `won = False`. -/
def levelInit (b : PyBoard Nat) (st : Nat → Entity) (n : Nat) :
    EngineState :=
  { board := b, store := st, nextId := n, stepCount := 0, won := false }

/-- `board.get_all(filter_type=T)`: the `(pos, entity)` pairs of
`type_locs` whose entity satisfies the type filter, snapshotted with
`list(...)` before each phase loop. -/
def typeSnapshot (L : EngineState) (p : Entity → Bool) :
    List ((Int × Int) × Nat) :=
  L.board.typeLocs.filter (fun pe => p (L.store pe.2))

/-- Construct a fresh entity object and insert it on the board. -/
def insertFresh (L : EngineState) (pos : Int × Int) (e : Entity) :
    EngineState :=
  { L with board := L.board.insert pos [L.nextId],
           store := updateStore L.store L.nextId e,
           nextId := L.nextId + 1 }

/-- One iteration of the `apply_resource_extractors` loop: if the
extractor's `step_count % period == phase - 1` and a ResourceTile
occupies its cell, spawn exactly one Barrel there with the first
matching tile's color and the extractor's orientation (the `break`
after the first `isinstance` match). -/
def extractorStep (acc : EngineState) (pe : (Int × Int) × Nat) :
    EngineState :=
  match acc.store pe.2 with
  | .resourceExtractor o per ph _ =>
    if acc.stepCount % per = ph - 1 then
      match (acc.board.get pe.1).findSome?
          (fun d => (acc.store d).tileColor) with
      | some c => insertFresh acc pe.1 (.barrel c o false)
      | none => acc
    else acc
  | _ => acc

/-- `Level.apply_resource_extractors`: run `extractorStep` over the
snapshotted extractor list. -/
def applyResourceExtractors (L : EngineState) : EngineState :=
  (typeSnapshot L Entity.isExtractor).foldl extractorStep L

/-- `Level.check_won`: `won = all(e.count == 0 for Targets)`. -/
def checkWon (L : EngineState) : EngineState :=
  { L with
    won := ((typeSnapshot L Entity.isTarget).all
      (fun pe => (L.store pe.2).targetCount == 0)) }

/-- `Level.apply_targets`: every Target absorbs (removes) every Barrel
in its cell regardless of color and decrements `count` when the
absorbed barrel's color matches.  A failing `Board.remove` propagates
as the raised error. -/
def applyTargets (L : EngineState) : Except BErr EngineState :=
  (typeSnapshot L Entity.isTarget).foldlM (fun acc pe =>
    (acc.board.get pe.1).foldlM (fun acc2 d =>
      if (acc2.store d).isBarrel then
        match acc2.board.remove pe.1 [d] with
        | (some err, _) => Except.error err
        | (none, b2) =>
          match acc2.store d, acc2.store pe.2 with
          | .barrel bc _ _, .target tc cnt =>
            if bc = tc then
              Except.ok { acc2 with
                board := b2
                store := updateStore acc2.store pe.2 (.target tc (cnt - 1)) }
            else Except.ok { acc2 with board := b2 }
          | _, _ => Except.ok { acc2 with board := b2 }
      else Except.ok acc2) acc) L

/-- `Level.apply_pistons`: every activated piston pushes every `moves`
entity in the faced cell one further cell along its orientation,
setting the entity's velocity — with no walkability check on the
destination. -/
def pistonPushStep (o : Dir) (focus : Int × Int) (acc2 : EngineState)
    (d : Nat) : Except BErr EngineState :=
  if (acc2.store d).moves then
    let st2 := updateStore acc2.store d ((acc2.store d).setVelocity o)
    match acc2.board.remove focus [d] with
    | (some err, _) => Except.error err
    | (none, b2) =>
      Except.ok { acc2 with
        store := st2
        board := b2.insert (posAdd focus o.vec) [d] }
  else Except.ok acc2

/-- One iteration of the `apply_pistons` loop over the snapshotted
piston list. -/
def pistonStep (acc : EngineState) (pe : (Int × Int) × Nat) :
    Except BErr EngineState :=
  match acc.store pe.2 with
  | .piston o act _ =>
    if act.getD false then
      (acc.board.get (posAdd pe.1 o.vec)).foldlM
        (pistonPushStep o (posAdd pe.1 o.vec)) acc
    else Except.ok acc
  | _ => Except.ok acc

def applyPistons (L : EngineState) : Except BErr EngineState :=
  (typeSnapshot L Entity.isPiston).foldlM pistonStep L

/-- `Level.apply_merges`: in every cell holding more than one mergeable
entity, remove them all and insert the folded result. -/
def applyMerges (L : EngineState) : Except BErr EngineState :=
  L.board.cells.foldlM (fun acc pc =>
    match pc.2.filter (fun d => (acc.store d).merges) with
    | [] => Except.ok acc
    | [_] => Except.ok acc
    | m0 :: rest =>
      let res := mergeResult (acc.store m0) (rest.map acc.store)
      match acc.board.remove pc.1 (m0 :: rest) with
      | (some err, _) => Except.error err
      | (none, b2) =>
        Except.ok (insertFresh { acc with board := b2 } pc.1 res)) L

/-- Every identity stored on the board is below `nextId` (all ids were
allocated in the past), so fresh allocations never collide. -/
def IdsBounded (L : EngineState) : Prop :=
  (∀ pc ∈ L.board.cells, ∀ i ∈ pc.2, i < L.nextId) ∧
  (∀ pe ∈ L.board.typeLocs, pe.2 < L.nextId)

/-- The spawn that claim C6 predicts for one snapshot entry: an eligible
extractor at `pos` whose cell holds a ResourceTile contributes exactly
one Barrel with the first matching tile's color and the extractor's
orientation (used only to state the C6 theorem). -/
def extractorSpawnSpec (L : EngineState) (pos : Int × Int)
    (pe : (Int × Int) × Nat) : Option Entity :=
  if pe.1 = pos then
    match L.store pe.2 with
    | .resourceExtractor o per ph _ =>
      if L.stepCount % per = ph - 1 then
        ((L.board.get pos).findSome? (fun d => (L.store d).tileColor)).map
          (fun c => Entity.barrel c o false)
      else none
    | _ => none
  else none

/- C10: absorbing into a zero-count target makes the count negative and
un-wins the level. -/

/-- A level with a Target(RED, count=0) and a RED Barrel stacked at the
origin (identities 0 and 1). -/
def c10Store : Nat → Entity := fun i =>
  if i = 0 then Entity.target Color.RED 0
  else Entity.barrel Color.RED Dir.NONE false

def c10Level : EngineState :=
  levelInit (PyBoard.mk [((0, 0), [0, 1])] [((0, 0), 0), ((0, 0), 1)])
    c10Store 2

/- C7: the win-condition check. -/

/-- A level over an empty board: no targets at all. -/
def c7Level : EngineState :=
  levelInit (PyBoard.mk [] []) (fun _ => Entity.barrier true) 0

/- C6: the resource-extraction phase. -/

/-- Conclusions tying a state `acc1` reached from `acc` during the
extraction phase to the predicted spawn list `spec`:  identities stay
bounded, the clock and all pre-existing objects are untouched, and every
cell grows exactly by the predicted freshly spawned Barrels. -/
def ExtEvolves (acc acc1 : EngineState)
    (spec : (Int × Int) → List Entity) : Prop :=
  IdsBounded acc1 ∧ acc.nextId ≤ acc1.nextId ∧
  acc1.stepCount = acc.stepCount ∧
  (∀ i, i < acc.nextId → acc1.store i = acc.store i) ∧
  (∀ q, (acc1.board.get q).map acc1.store =
    (acc.board.get q).map acc.store ++ spec q) ∧
  (∀ q, ∃ newids, acc1.board.get q = acc.board.get q ++ newids ∧
    ∀ i ∈ newids, ∃ c2 o2 lk2, acc1.store i = Entity.barrel c2 o2 lk2)

/-- An eligible extractor (id 0, period 3, phase 1, facing EAST) over a
RED ResourceTile (id 1) at (2, 3), at tick 0. -/
def c6Level : EngineState :=
  levelInit (PyBoard.mk [((2, 3), [0, 1])] [((2, 3), 0), ((2, 3), 1)])
    (fun i => if i = 0
      then Entity.resourceExtractor Dir.EAST 3 1 false
      else Entity.resourceTile Color.RED) 2

/-- Invariant of the push loop of one activated piston: after the
identities in `done` have been processed (`rest` still pending), the
focus cell has lost exactly the processed movers, the destination cell
has gained them in order, every processed mover's velocity is set to the
piston's orientation, and everything else is untouched. -/
def PistInv (L A : EngineState) (o : Dir) (focus dest : Int × Int)
    (done rest : List Nat) : Prop :=
  A.board.get focus =
    done.filter (fun d => !(L.store d).moves) ++ rest ∧
  A.board.get dest =
    L.board.get dest ++ done.filter (fun d => (L.store d).moves) ∧
  (∀ q, q ≠ focus → q ≠ dest → A.board.get q = L.board.get q) ∧
  (∀ d ∈ done.filter (fun d => (L.store d).moves),
    A.store d = (L.store d).setVelocity o) ∧
  (∀ d, d ∉ done.filter (fun d => (L.store d).moves) →
    A.store d = L.store d) ∧
  (∀ d ∈ rest, (focus, d) ∈ A.board.typeLocs)

/-- A level with an activated EAST-facing piston (id 0) at the origin, a
barrel (id 1) in the faced cell (1, 0), and a Barrier — a `stops = true`
entity — at the push destination (2, 0). -/
def c9Level : EngineState :=
  levelInit
    (PyBoard.mk [((0, 0), [0]), ((1, 0), [1]), ((2, 0), [2])]
      [((0, 0), 0), ((1, 0), 1), ((2, 0), 2)])
    (fun i =>
      if i = 0 then Entity.piston Dir.EAST (some true) false
      else if i = 1 then Entity.barrel Color.RED Dir.NONE false
      else Entity.barrier true) 3

/- ------------------------------------------------------------------ -/
/- Wiring resolution (entities.py Wirable.resolve_port,                -/
/- engine.py Level.resolve_wiring_network)                             -/
/- ------------------------------------------------------------------ -/

/-- The behaviour of `resolve_output_port` per Wirable kind: the three
gates evaluate their boolean function over the resolved input values
(Python treats a `None` value as falsy), `source` covers Sensor and
PressurePlate (returning their previously computed `activated` flag),
and `pistonRepeat` is `Piston.resolve_output_port`, which repeats the
input port. -/
inductive WKind where
  | andGate | orGate | notGate | source (activated : Bool) | pistonRepeat
deriving DecidableEq, Repr

/-- One Wirable entity: its kind and its `num_inputs`/`num_outputs`.
Its ports are indexed `0 .. numIn + numOut - 1`, inputs first, exactly
as `Wirable.__init__` builds `wirings`. -/
structure WEnt where
  kind : WKind
  numIn : Nat
  numOut : Nat
deriving DecidableEq, Repr

/-- A wiring graph: the Wirable entities in board-iteration order and
the connection list.  A port is addressed `(entity index, port index)`;
`wires` holds both directions of every connection, mirroring the
symmetric `wirings` entries that `make_connection` writes. -/
structure WGraph where
  ents : List WEnt
  wires : List ((Nat × Nat) × (Nat × Nat))
deriving DecidableEq, Repr

def WGraph.ent (g : WGraph) (e : Nat) : WEnt :=
  g.ents.getD e ⟨WKind.andGate, 0, 0⟩

def WGraph.nports (g : WGraph) (e : Nat) : Nat :=
  (g.ent e).numIn + (g.ent e).numOut

/-- The `(is_input, other, j)` wiring record: `partner p` is the far end
of port `p`'s connection, if any. -/
def WGraph.partner (g : WGraph) (p : Nat × Nat) : Option (Nat × Nat) :=
  lookupA p g.wires

def WGraph.validP (g : WGraph) (p : Nat × Nat) : Prop :=
  p.1 < g.ents.length ∧ p.2 < g.nports p.1

/-- A port is an input iff its index is below `num_inputs` (inputs come
first in `wirings`). -/
def WGraph.isInp (g : WGraph) (p : Nat × Nat) : Prop :=
  p.2 < (g.ent p.1).numIn

instance (g : WGraph) (p : Nat × Nat) : Decidable (g.validP p) := by
  unfold WGraph.validP; infer_instance

instance (g : WGraph) (p : Nat × Nat) : Decidable (g.isInp p) := by
  unfold WGraph.isInp; infer_instance

/-- Well-formed wiring: every stored wire is mirrored (symmetric
connections), endpoints are valid ports of opposite kinds
(`make_connection` forbids input-input and output-output), and pistons
have no output ports (`Piston.max_num_outputs = 0`). -/
def WF (g : WGraph) : Prop :=
  (∀ w ∈ g.wires, lookupA w.2 g.wires = some w.1 ∧
    g.validP w.1 ∧ g.validP w.2 ∧ (g.isInp w.1 ↔ ¬ g.isInp w.2)) ∧
  (∀ e, e < g.ents.length → (g.ent e).kind = WKind.pistonRepeat →
    (g.ent e).numOut = 0)

/-- The per-entity resolution state: `ports_visited` and `port_states`
of every Wirable, addressed by global port id. -/
structure RSt where
  vis : Nat × Nat → Bool
  st : Nat × Nat → Option Bool

def RSt.mark (s : RSt) (p : Nat × Nat) : RSt :=
  { s with vis := fun x => if x = p then true else s.vis x }

def RSt.write (s : RSt) (p : Nat × Nat) (v : Option Bool) : RSt :=
  { s with st := fun x => if x = p then v else s.st x }

/-- The state after `clear_ports_visited` and `clear_ports_states`: all
ports unvisited with `None` state. -/
def initSt : RSt := ⟨fun _ => false, fun _ => none⟩

/-- Gate evaluation over the resolved (possibly `None`) input values:
`all`/`any`/`not` treat `None` as falsy, exactly as Python does. -/
def evalGate (k : WKind) (vs : List (Option Bool)) : Bool :=
  match k with
  | WKind.andGate => vs.all (fun v => v.getD false)
  | WKind.orGate => vs.any (fun v => v.getD false)
  | WKind.notGate => !((vs.headD none).getD false)
  | WKind.source b => b
  | WKind.pistonRepeat => false

mutual

/-- `Wirable.resolve_port`: a visited port returns its cached state
immediately (the cycle short-circuit); otherwise the port is marked
visited, resolved (an unconnected port is LOW, an input recurses into
its partner, an output delegates to `resolve_output_port`), and the
result is cached.  `fuel` bounds the recursion depth; exhaustion is the
`Except.error` outcome (shown unreachable below). -/
def resolveP (g : WGraph) : Nat → Nat × Nat → RSt →
    (Except Unit (Option Bool)) × RSt
  | 0, _, s => (Except.error (), s)
  | fuel + 1, p, s =>
    if s.vis p then (Except.ok (s.st p), s)
    else
      let s1 := s.mark p
      match g.partner p with
      | none => (Except.ok (some false), s1.write p (some false))
      | some q =>
        if p.2 < (g.ent p.1).numIn then
          match resolveP g fuel q s1 with
          | (Except.error u, s2) => (Except.error u, s2)
          | (Except.ok v, s2) => (Except.ok v, s2.write p v)
        else
          match resolveOutP g fuel p s1 with
          | (Except.error u, s2) => (Except.error u, s2)
          | (Except.ok v, s2) => (Except.ok v, s2.write p v)
  termination_by fuel _ _ => (fuel, 0, 0)

/-- `resolve_output_port`: gates resolve all of their own input ports
and evaluate; Sensor/PressurePlate return `activated`; Piston repeats
its input port 0. -/
def resolveOutP (g : WGraph) : Nat → Nat × Nat → RSt →
    (Except Unit (Option Bool)) × RSt
  | fuel, p, s =>
    match (g.ent p.1).kind with
    | WKind.source b => (Except.ok (some b), s)
    | WKind.pistonRepeat => resolveP g fuel (p.1, 0) s
    | k =>
      match resolveIns g fuel p.1 (List.range (g.ent p.1).numIn) s with
      | (Except.error u, s2) => (Except.error u, s2)
      | (Except.ok vs, s2) => (Except.ok (some (evalGate k vs)), s2)
  termination_by fuel _ _ => (fuel, 2, 0)

/-- The list comprehension `[self.resolve_port(i) for i in
range(self.num_inputs)]` inside `Gate.resolve_output_port`. -/
def resolveIns (g : WGraph) : Nat → Nat → List Nat → RSt →
    (Except Unit (List (Option Bool))) × RSt
  | _, _, [], s => (Except.ok [], s)
  | fuel, e, k :: ks, s =>
    match resolveP g fuel (e, k) s with
    | (Except.error u, s2) => (Except.error u, s2)
    | (Except.ok v, s2) =>
      match resolveIns g fuel e ks s2 with
      | (Except.error u, s3) => (Except.error u, s3)
      | (Except.ok vs, s3) => (Except.ok (v :: vs), s3)
  termination_by fuel _ ks _ => (fuel, 1, ks.length)

end

/-- The per-entity loop of `Level.resolve_wiring_network`:
`for i in range(len(e.port_states)): e.resolve_port(i)`. -/
def passEnt (g : WGraph) (fuel e : Nat) : List Nat → RSt → Except Unit RSt
  | [], s => Except.ok s
  | k :: ks, s =>
    match resolveP g fuel (e, k) s with
    | (Except.error _, _) => Except.error ()
    | (Except.ok _, s2) => passEnt g fuel e ks s2

/-- The outer loop of `Level.resolve_wiring_network` over all Wirables
(in board iteration order). -/
def passAll (g : WGraph) (fuel : Nat) : List Nat → RSt → Except Unit RSt
  | [], s => Except.ok s
  | e :: es, s =>
    match passEnt g fuel e (List.range (g.nports e)) s with
    | Except.error u => Except.error u
    | Except.ok s2 => passAll g fuel es s2

/-- All valid ports, entity-major, port-index order (inputs first). -/
def allPorts (g : WGraph) : List (Nat × Nat) :=
  ((List.range g.ents.length).map
    (fun e => (List.range (g.nports e)).map (fun k => (e, k)))).flatten

def totalPorts (g : WGraph) : Nat := (allPorts g).length

/-- The number of valid ports not yet visited. -/
def unvisCount (g : WGraph) (s : RSt) : Nat :=
  ((allPorts g).filter (fun p => !(s.vis p))).length

/-- `Level.resolve_wiring_network`'s resolution pass, started from the
cleared state with enough fuel for the deepest possible recursion. -/
def resolveWiringPass (g : WGraph) : Except Unit RSt :=
  passAll g (totalPorts g + 1) (List.range g.ents.length) initSt

/- The invariants threaded through the resolution recursion. -/

/-- Every closed (visited, not-on-stack) port already holds a boolean. -/
def GoodS (s : RSt) (S : List (Nat × Nat)) : Prop :=
  ∀ p, s.vis p = true → p ∉ S → (s.st p).isSome = true

/-- Every open frame on the recursion stack is a visited port, and an
open output frame was entered from its (already visited) partner. -/
def StackInv (g : WGraph) (s : RSt) (S : List (Nat × Nat)) : Prop :=
  ∀ q ∈ S, s.vis q = true ∧
    (¬ g.isInp q → ∀ r, g.partner q = some r → s.vis r = true)

/-- Precondition for resolving port `p`: inputs are unrestricted; an
output is resolved either during its own entity's pass iteration (all
its entity's inputs already visited) or from its partner (visited just
before the call). -/
def PreP (g : WGraph) (s : RSt) (p : Nat × Nat) : Prop :=
  g.isInp p ∨ (∀ j, j < (g.ent p.1).numIn → s.vis (p.1, j) = true) ∨
    (∀ r, g.partner p = some r → s.vis r = true)

/-- Conclusions about one `resolveP` call: no fuel exhaustion, visited
set monotone and now containing `p`, previously visited ports' states
untouched, closed ports all boolean, visited ports short-circuit, fresh
ports get a boolean cached and returned, and every newly visited
unconnected port is cached LOW. -/
def ResOK (g : WGraph) (p : Nat × Nat) (s : RSt) (S : List (Nat × Nat))
    (out : (Except Unit (Option Bool)) × RSt) : Prop :=
  (∃ v, out.1 = Except.ok v) ∧
  (∀ x, s.vis x = true → out.2.vis x = true) ∧
  out.2.vis p = true ∧
  (∀ x, s.vis x = true → out.2.st x = s.st x) ∧
  GoodS out.2 S ∧
  (s.vis p = true → out.2 = s ∧ out.1 = Except.ok (s.st p)) ∧
  (s.vis p = false → (out.2.st p).isSome = true ∧
    out.1 = Except.ok (out.2.st p)) ∧
  (∀ x, s.vis x = false → out.2.vis x = true → g.partner x = none →
    out.2.st x = some false)

/-- Conclusions about one `resolveIns` call (the gate input loop). -/
def InsOK (g : WGraph) (s : RSt) (S : List (Nat × Nat))
    (out : (Except Unit (List (Option Bool))) × RSt) : Prop :=
  (∃ vs, out.1 = Except.ok vs) ∧
  (∀ x, s.vis x = true → out.2.vis x = true) ∧
  (∀ x, s.vis x = true → out.2.st x = s.st x) ∧
  GoodS out.2 S ∧
  (∀ x, s.vis x = false → out.2.vis x = true → g.partner x = none →
    out.2.st x = some false)

def MainP (g : WGraph) (fuel : Nat) : Prop :=
  ∀ p s S, WF g → unvisCount g s < fuel → GoodS s S → StackInv g s S →
    g.validP p → PreP g s p → ResOK g p s S (resolveP g fuel p s)

def InsP (g : WGraph) (fuel : Nat) : Prop :=
  ∀ e ks s S, WF g → unvisCount g s < fuel → GoodS s S →
    StackInv g s S → (∀ k ∈ ks, g.validP (e, k) ∧ g.isInp (e, k)) →
    InsOK g s S (resolveIns g fuel e ks s)

/-- Conclusions of a (partial) resolution pass started outside any
`resolve_port` frame: success, visited-set monotone, visited states
untouched, every closed port boolean, fresh unconnected ports LOW. -/
def PassOK (g : WGraph) (s s' : RSt) : Prop :=
  (∀ x, s.vis x = true → s'.vis x = true) ∧
  (∀ x, s.vis x = true → s'.st x = s.st x) ∧
  GoodS s' [] ∧
  (∀ x, s.vis x = false → s'.vis x = true → g.partner x = none →
    s'.st x = some false)

/-- A concrete wiring graph with a feedback cycle: an AND gate and an
OR gate, the AND's output wired to the OR's first input and the OR's
output wired back to the AND's first input; the remaining two inputs
are left unconnected. -/
def cycleG : WGraph :=
  ⟨[⟨WKind.andGate, 2, 1⟩, ⟨WKind.orGate, 2, 1⟩],
   [((0, 2), (1, 0)), ((1, 0), (0, 2)),
    ((1, 2), (0, 0)), ((0, 0), (1, 2))]⟩

/- ------------------------------------------------------------------ -/
/- Theorems                                                            -/
/- ------------------------------------------------------------------ -/

/-- C1: for every ordered pair of the 13 `Color` values, `Color.add`
(the `mix` operation) succeeds with a member of the 13-color set
(closure), is commutative, and is idempotent. -/
theorem color_mix_closed_comm_idem :
    ∀ c1 c2 : Color,
      (Color.add c1 c2).isSome = true ∧
      Color.add c1 c2 = Color.add c2 c1 ∧
      Color.add c1 c1 = some c1 := by decide

/-- C2 counterexample: `apply_merges` occurs twice in one full tick
(once in each substep), so the claim that each of the 8 phase effects is
applied exactly once per tick fails for the merge phase. -/
theorem fullTick_merges_twice :
    fullTick.count PhaseTag.applyMerges = 2 ∧
      ¬ fullTick.count PhaseTag.applyMerges = 1 := by decide

/-- C2 (amended): within a single full tick each of the 8 phase effects
is applied at least once — merging exactly twice (once per substep), the
other seven exactly once — and wiring resolution runs strictly after
every translation and merge phase and strictly before piston
actuation. -/
theorem fullTick_phase_counts_and_order :
    fullTick.count PhaseTag.applyResourceExtractors = 1 ∧
    fullTick.count PhaseTag.applyTranslations = 1 ∧
    fullTick.count PhaseTag.applyMerges = 2 ∧
    fullTick.count PhaseTag.applyBoostpadRedirects = 1 ∧
    fullTick.count PhaseTag.applyTargets = 1 ∧
    fullTick.count PhaseTag.resolveWiringNetwork = 1 ∧
    fullTick.count PhaseTag.applyPistons = 1 ∧
    fullTick.count PhaseTag.checkWon = 1 ∧
    (∀ i j : Fin fullTick.length,
      (fullTick.get i = PhaseTag.applyMerges ∨
       fullTick.get i = PhaseTag.applyTranslations) →
      fullTick.get j = PhaseTag.resolveWiringNetwork → i < j) ∧
    (∀ i j : Fin fullTick.length,
      fullTick.get i = PhaseTag.resolveWiringNetwork →
      fullTick.get j = PhaseTag.applyPistons → i < j) := by decide

/- Helper lemmas about the association-list primitives. -/

theorem lookupA_mem {κ τ : Type} [DecidableEq κ] {k : κ} {v : τ} :
    ∀ {l : List (κ × τ)}, lookupA k l = some v → (k, v) ∈ l := by
  intro l
  induction l with
  | nil => intro h; simp [lookupA] at h
  | cons p rest ih =>
    obtain ⟨a, w⟩ := p
    intro h
    by_cases hp : a = k
    · subst hp
      simp [lookupA] at h
      subst h
      exact List.mem_cons_self _ _
    · simp [lookupA, hp] at h
      exact List.mem_cons_of_mem _ (ih h)

theorem lookupA_setA_self {κ τ : Type} [DecidableEq κ] (k : κ) (v : τ)
    (l : List (κ × τ)) :
    lookupA k (setA k v l) = (lookupA k l).map (fun _ => v) := by
  induction l with
  | nil => simp [lookupA, setA]
  | cons p rest ih =>
    obtain ⟨a, w⟩ := p
    by_cases hp : a = k
    · subst hp; simp [lookupA, setA]
    · simp [lookupA, setA, hp]
      simpa [setA] using ih

theorem lookupA_setA_ne {κ τ : Type} [DecidableEq κ] {k q : κ} (v : τ)
    (l : List (κ × τ)) (hqk : q ≠ k) :
    lookupA q (setA k v l) = lookupA q l := by
  induction l with
  | nil => simp [lookupA, setA]
  | cons p rest ih =>
    obtain ⟨a, w⟩ := p
    by_cases hp : a = k
    · subst hp
      have hne : a ≠ q := fun h => hqk h.symm
      simp [lookupA, setA, hne]
      simpa [setA] using ih
    · by_cases hq : a = q
      · subst hq; simp [lookupA, setA, hp]
      · simp [lookupA, setA, hp, hq]
        simpa [setA] using ih

/-- The mutation loop of `Board.remove` succeeds when the argument list
has no duplicates, the cell has no duplicates, every argument is in the
cell, and `type_locs` covers the cell. -/
theorem removeLoop_ok {α : Type} [DecidableEq α] (pos : Int × Int) :
    ∀ (es cell : List α) (tl : List ((Int × Int) × α)),
      es.Nodup → cell.Nodup → (∀ e ∈ es, e ∈ cell) →
      (∀ x ∈ cell, (pos, x) ∈ tl) →
      removeLoop pos cell tl es =
        (none, es.foldl (fun c e => c.erase e) cell,
          es.foldl (fun t e => t.erase (pos, e)) tl) := by
  intro es
  induction es with
  | nil => intro cell tl _ _ _ _; rfl
  | cons e rest ih =>
    intro cell tl hnd hcell hmem hsync
    have he : e ∈ cell := hmem e (List.mem_cons_self e rest)
    have hpair : (pos, e) ∈ tl := hsync e he
    have hnd' := hnd
    rw [List.nodup_cons] at hnd'
    have step : removeLoop pos cell tl (e :: rest) =
        removeLoop pos (cell.erase e) (tl.erase (pos, e)) rest := by
      simp [removeLoop, he, hpair]
    rw [step]
    have hrec := ih (cell.erase e) (tl.erase (pos, e)) hnd'.2
      (hcell.erase e)
      (by
        intro x hx
        have hxe : x ≠ e := fun hxeq => hnd'.1 (hxeq ▸ hx)
        exact (List.mem_erase_of_ne hxe).mpr (hmem x (List.mem_cons_of_mem _ hx)))
      (by
        intro x hx
        have hx' : x ≠ e ∧ x ∈ cell := (List.Nodup.mem_erase_iff hcell).mp hx
        have hxp : (pos, x) ≠ (pos, e) := by
          intro hcontra
          exact hx'.1 (congrArg Prod.snd hcontra)
        exact (List.mem_erase_of_ne hxp).mpr (hsync x hx'.2))
    rw [hrec]
    rfl

/-- C4: insert one entity into an empty board, then remove it.  The
removal succeeds, but the board retains an entry for the cell as an
empty list — `get_cell_count` still reports 1 and cell iteration still
yields the (now empty) cell.  `Board.remove` never prunes, contradicting
the documented "never stores cells with zero entities" invariant. -/
theorem board_remove_keeps_empty_cell :
    (((PyBoard.mk [] []).insert (0, 0) [7]).remove (0, 0) [7]).1 = none ∧
    (((PyBoard.mk ([] : List ((Int × Int) × List Nat)) []).insert
        (0, 0) [7]).remove (0, 0) [7]).2.cells = [((0, 0), [])] ∧
    (((PyBoard.mk ([] : List ((Int × Int) × List Nat)) []).insert
        (0, 0) [7]).remove (0, 0) [7]).2.getCellCount = 1 ∧
    (lookupA (0, 0) ((((PyBoard.mk ([] : List ((Int × Int) × List Nat))
        []).insert (0, 0) [7]).remove (0, 0) [7]).2.cells)).isSome = true := by
  decide

/-- C5 counterexample: on a board whose cell holds the entity `5` once,
`remove(pos, 5, 5)` passes the membership pre-check (both listed
entities are present), removes the single occurrence, and then raises
`list.remove`'s own `ValueError` — so an error is raised with the board
already mutated (the cell is empty afterwards), violating atomicity for
argument lists with duplicates. -/
theorem board_remove_duplicate_args_not_atomic :
    ((PyBoard.mk [((0, 0), [5])] [((0, 0), 5)]).remove (0, 0) [5, 5]).1 =
      some BErr.listRemoveErr ∧
    ((PyBoard.mk [((0, 0), [5])] [((0, 0), 5)]).remove (0, 0) [5, 5]).2 ≠
      PyBoard.mk [((0, 0), [5])] [((0, 0), 5)] ∧
    ((PyBoard.mk [((0, 0), [5])] [((0, 0), 5)]).remove
        (0, 0) [5, 5]).2.get (0, 0) = [] := by
  decide

/-- C5 (amended): `Board.remove` raises the "not present" error exactly
when the cell is absent or a listed entity is missing from it, leaving
the board unchanged; and when the argument list has no duplicates (on a
board whose cells are duplicate-free and in sync with `type_locs`), a
passing pre-check means every listed entity is removed without error.
For duplicate argument lists atomicity fails (see the counterexample). -/
theorem board_remove_not_present_and_atomic {α : Type} [DecidableEq α]
    (b : PyBoard α) (pos : Int × Int) (es : List α)
    (hnd : es.Nodup) (hsync : BoardSync b) (hcn : CellsNodup b) :
    (¬ RemovePre b pos es → b.remove pos es = (some BErr.notPresent, b)) ∧
    (RemovePre b pos es →
      (b.remove pos es).1 = none ∧
      (b.remove pos es).2.get pos =
        es.foldl (fun c e => c.erase e) (b.get pos) ∧
      ∀ q, q ≠ pos → (b.remove pos es).2.get q = b.get q) := by
  constructor
  · intro hpre
    match hl : lookupA pos b.cells with
    | none => simp [PyBoard.remove, hl]
    | some cell =>
      have hget : b.get pos = cell := by simp [PyBoard.get, hl]
      by_cases hall : ∀ e ∈ es, e ∈ cell
      · exact absurd ⟨by simp [hl], by rw [hget]; exact hall⟩ hpre
      · have : ¬ (es.all fun e => decide (e ∈ cell)) = true := by
          simp only [List.all_eq_true, decide_eq_true_eq]
          exact hall
        simp [PyBoard.remove, hl, this]
  · intro hpre
    obtain ⟨hsome, hall⟩ := hpre
    match hl : lookupA pos b.cells with
    | none => rw [hl] at hsome; simp at hsome
    | some cell =>
      have hget : b.get pos = cell := by simp [PyBoard.get, hl]
      rw [hget] at hall
      have hallb : (es.all fun e => decide (e ∈ cell)) = true := by
        simp only [List.all_eq_true, decide_eq_true_eq]
        exact hall
      have hcellmem : (pos, cell) ∈ b.cells := lookupA_mem hl
      have hloop := removeLoop_ok pos es cell b.typeLocs hnd
        (hcn (pos, cell) hcellmem)
        hall
        (fun x hx => hsync (pos, cell) hcellmem x hx)
      refine ⟨?_, ?_, ?_⟩
      · simp [PyBoard.remove, hl, hallb, hloop]
      · simp only [PyBoard.remove, hl, hallb, if_true, hloop]
        simp only [PyBoard.get]
        rw [lookupA_setA_self]
        simp [hl, hget]
      · intro q hq
        simp only [PyBoard.remove, hl, hallb, if_true, hloop]
        simp only [PyBoard.get]
        rw [lookupA_setA_ne _ _ hq]

/-- C5 witness: the amended removal theorem applied to a concrete board
holding entities 1 and 2 at the origin, removing both. -/
theorem board_remove_not_present_and_atomic_witness :
    (([1, 2] : List Nat).Nodup ∧
      BoardSync (PyBoard.mk [((0, 0), [1, 2])] [((0, 0), 1), ((0, 0), 2)]) ∧
      CellsNodup (PyBoard.mk [((0, 0), [1, 2])] [((0, 0), 1), ((0, 0), 2)])) ∧
    (¬ RemovePre (PyBoard.mk [((0, 0), [1, 2])] [((0, 0), 1), ((0, 0), 2)])
        (0, 0) [1, 2] →
      (PyBoard.mk [((0, 0), [1, 2])] [((0, 0), 1), ((0, 0), 2)]).remove
          (0, 0) [1, 2] =
        (some BErr.notPresent,
          PyBoard.mk [((0, 0), [1, 2])] [((0, 0), 1), ((0, 0), 2)])) ∧
    (RemovePre (PyBoard.mk [((0, 0), [1, 2])] [((0, 0), 1), ((0, 0), 2)])
        (0, 0) [1, 2] →
      ((PyBoard.mk [((0, 0), [1, 2])] [((0, 0), 1), ((0, 0), 2)]).remove
          (0, 0) [1, 2]).1 = none ∧
      ((PyBoard.mk [((0, 0), [1, 2])] [((0, 0), 1), ((0, 0), 2)]).remove
          (0, 0) [1, 2]).2.get (0, 0) =
        ([1, 2] : List Nat).foldl (fun c e => c.erase e)
          ((PyBoard.mk [((0, 0), [1, 2])] [((0, 0), 1), ((0, 0), 2)]).get
            (0, 0)) ∧
      ∀ q, q ≠ ((0 : Int), (0 : Int)) →
        ((PyBoard.mk [((0, 0), [1, 2])] [((0, 0), 1), ((0, 0), 2)]).remove
            (0, 0) [1, 2]).2.get q =
          (PyBoard.mk [((0, 0), [1, 2])] [((0, 0), 1), ((0, 0), 2)]).get q) :=
  ⟨⟨by decide, by unfold BoardSync; decide, by unfold CellsNodup; decide⟩,
    board_remove_not_present_and_atomic
      (PyBoard.mk [((0, 0), [1, 2])] [((0, 0), 1), ((0, 0), 2)]) (0, 0) [1, 2]
      (by decide) (by unfold BoardSync; decide) (by unfold CellsNodup; decide)⟩

/- C8: the merged barrel always has velocity NONE and locked = false. -/

theorem mergeFold_barrel_shape :
    ∀ (es : List Entity) (c : Color), (∀ x ∈ es, x.merges = true) →
      ∃ c2, es.foldl Entity.add (Entity.barrel c Dir.NONE false) =
        Entity.barrel c2 Dir.NONE false := by
  intro es
  induction es with
  | nil => intro c _; exact ⟨c, rfl⟩
  | cons y ys ih =>
    intro c hm
    have hy : y.merges = true := hm y (List.mem_cons_self _ _)
    match y, hy with
    | .barrel cy vy lky, _ =>
      have hys : ∀ x ∈ ys, x.merges = true :=
        fun x hx => hm x (List.mem_cons_of_mem _ hx)
      simpa [List.foldl_cons, Entity.add] using ih (mixColor c cy) hys

/-- C8: the single Barrel produced by the merge phase
(`sum(mergable[1:], mergable[0])`, i.e. `mergeResult`) from two or more
mergeable entities always has `velocity = Direction.NONE` and
`locked = false`, regardless of the velocities and locked flags of the
inputs. -/
theorem merge_result_velocity_none_unlocked
    (e : Entity) (es : List Entity)
    (hm : ∀ x ∈ e :: es, x.merges = true) (hne : es ≠ []) :
    ∃ c, mergeResult e es = Entity.barrel c Dir.NONE false := by
  match es, hne with
  | x :: rest, _ =>
    have he : e.merges = true := hm e (List.mem_cons_self _ _)
    have hx : x.merges = true :=
      hm x (List.mem_cons_of_mem _ (List.mem_cons_self _ _))
    match e, he, x, hx with
    | .barrel c1 v1 l1, _, .barrel c2 v2 l2, _ =>
      have hrest : ∀ y ∈ rest, y.merges = true := fun y hy =>
        hm y (List.mem_cons_of_mem _ (List.mem_cons_of_mem _ hy))
      simpa [mergeResult, List.foldl_cons, Entity.add] using
        mergeFold_barrel_shape rest (mixColor c1 c2) hrest

/-- C8 witness: merging two barrels with nonzero velocities and locked
flags set still yields a NONE-velocity unlocked barrel. -/
theorem merge_result_velocity_none_unlocked_witness :
    (∀ x ∈ [Entity.barrel Color.RED Dir.EAST true,
            Entity.barrel Color.BLUE Dir.WEST true], x.merges = true) ∧
    ([Entity.barrel Color.BLUE Dir.WEST true] ≠ ([] : List Entity)) ∧
    ∃ c, mergeResult (Entity.barrel Color.RED Dir.EAST true)
        [Entity.barrel Color.BLUE Dir.WEST true] =
      Entity.barrel c Dir.NONE false :=
  ⟨by decide, by decide,
    merge_result_velocity_none_unlocked
      (Entity.barrel Color.RED Dir.EAST true)
      [Entity.barrel Color.BLUE Dir.WEST true] (by decide) (by decide)⟩

/-- C10: on `c10Level` the win check is already true (the target's count
is 0), yet `apply_targets` still absorbs the matching barrel (the cell
keeps only the target) and decrements the count to -1, after which the
win check is false again — a won level becomes not-won. -/
theorem target_absorbs_below_zero_and_unwins :
    (checkWon c10Level).won = true ∧
    (applyTargets c10Level).toOption.map (fun L1 => L1.board.get (0, 0)) =
      some [0] ∧
    (applyTargets c10Level).toOption.map
      (fun L1 => (L1.store 0).targetCount) = some (-1) ∧
    (applyTargets c10Level).toOption.map (fun L1 => (checkWon L1).won) =
      some false := by
  decide

/-- C7 counterexample: a Level constructed over a board with zero
targets has `won = false` immediately after construction at tick 0
(`Level.__init__` sets `won = False`; the first `check_won` only runs
inside the first substep). -/
theorem levelInit_zero_targets_not_won :
    typeSnapshot c7Level Entity.isTarget = [] ∧
    c7Level.stepCount = 0 ∧
    c7Level.won = false := by
  decide

/-- C7 (amended): after `check_won` runs, `won` is true iff every Target
on the board has `count == 0`; in particular a zero-target board yields
`won = true` at the first win check, while construction itself
initialises `won` to false. -/
theorem checkWon_iff_all_targets_zero (L : EngineState) :
    ((checkWon L).won = true ↔
      ∀ pe ∈ L.board.typeLocs, (L.store pe.2).isTarget = true →
        (L.store pe.2).targetCount = 0) ∧
    ((∀ pe ∈ L.board.typeLocs, (L.store pe.2).isTarget = false) →
      (checkWon L).won = true) ∧
    (levelInit L.board L.store L.nextId).won = false := by
  refine ⟨?_, ?_, rfl⟩
  · simp only [checkWon, typeSnapshot, List.all_eq_true, List.mem_filter,
      beq_iff_eq, and_imp]
  · intro hno
    simp only [checkWon, typeSnapshot, List.all_eq_true, List.mem_filter,
      beq_iff_eq, and_imp]
    intro pe hmem hT
    rw [hno pe hmem] at hT
    exact absurd hT (by simp)

/-- C7 witness: the amended win-check theorem applied to the concrete
zero-target level. -/
theorem checkWon_iff_all_targets_zero_witness :
    (checkWon c7Level).won = true :=
  (checkWon_iff_all_targets_zero c7Level).2.1 (by decide)

/- Lemmas about `PyBoard.insert` and cell lookups, used for C6 and C9. -/

theorem lookupA_append_some {κ τ : Type} [DecidableEq κ] {k : κ} {v : τ}
    {l1 : List (κ × τ)} (l2 : List (κ × τ)) (h : lookupA k l1 = some v) :
    lookupA k (l1 ++ l2) = some v := by
  induction l1 with
  | nil => simp [lookupA] at h
  | cons p rest ih =>
    by_cases hp : p.1 = k
    · simp [lookupA, hp] at h ⊢; exact h
    · simp [lookupA, hp] at h ⊢; exact ih h

theorem lookupA_append_none {κ τ : Type} [DecidableEq κ] {k : κ}
    {l1 : List (κ × τ)} (l2 : List (κ × τ)) (h : lookupA k l1 = none) :
    lookupA k (l1 ++ l2) = lookupA k l2 := by
  induction l1 with
  | nil => simp
  | cons p rest ih =>
    by_cases hp : p.1 = k
    · simp [lookupA, hp] at h
    · simp [lookupA, hp] at h ⊢; exact ih h

/-- The intermediate cell dict of `Board.insert` (after the
`cells[pos] = []` default) always has an entry at `pos`, holding the old
cell content. -/
theorem insert_cells1_lookup {α : Type} [DecidableEq α] (b : PyBoard α)
    (pos : Int × Int) :
    lookupA pos (if (lookupA pos b.cells).isSome then b.cells
      else b.cells ++ [(pos, [])]) = some (b.get pos) := by
  cases hs : lookupA pos b.cells with
  | none =>
    simp only [hs, Option.isSome_none, Bool.false_eq_true, if_false]
    rw [lookupA_append_none _ hs]
    simp [lookupA, PyBoard.get, hs]
  | some cell =>
    simp [hs, PyBoard.get]

/-- Effect of `Board.insert` on `Board.get`: the target cell is extended
at its end, all other cells unchanged. -/
theorem insert_get {α : Type} [DecidableEq α] (b : PyBoard α)
    (pos q : Int × Int) (es : List α) :
    (b.insert pos es).get q =
      if q = pos then b.get pos ++ es else b.get q := by
  by_cases hq : q = pos
  · subst hq
    simp only [PyBoard.insert, PyBoard.get, if_pos rfl]
    rw [lookupA_setA_self, insert_cells1_lookup]
    simp [PyBoard.get]
  · simp only [PyBoard.insert, PyBoard.get, if_neg hq]
    rw [lookupA_setA_ne _ _ hq]
    have hsame : lookupA q (if (lookupA pos b.cells).isSome then b.cells
        else b.cells ++ [(pos, [])]) = lookupA q b.cells := by
      cases hs : lookupA pos b.cells with
      | none =>
        simp only [hs, Option.isSome_none, Bool.false_eq_true, if_false]
        cases hq2 : lookupA q b.cells with
        | none =>
          rw [lookupA_append_none _ hq2]
          have hpq : ¬ pos = q := fun h => hq h.symm
          simp [lookupA, hpq]
        | some cell => exact lookupA_append_some _ hq2
      | some cell => simp [hs]
    rw [hsame]

/-- Every identity in a cell of `b.insert pos es` was already on the
board or is one of the inserted identities. -/
theorem insert_cells_mem {α : Type} [DecidableEq α] {b : PyBoard α}
    {pos : Int × Int} {es : List α} :
    ∀ pc ∈ (b.insert pos es).cells, ∀ i ∈ pc.2,
      (∃ pc0 ∈ b.cells, i ∈ pc0.2) ∨ i ∈ es := by
  intro pc hpc i hi
  simp only [PyBoard.insert, setA, List.mem_map] at hpc
  obtain ⟨p0, hp0, heq⟩ := hpc
  have hp0mem : p0 ∈ b.cells ∨ p0 = (pos, ([] : List α)) := by
    by_cases hb : (lookupA pos b.cells).isSome
    · rw [if_pos hb] at hp0; exact Or.inl hp0
    · rw [if_neg hb] at hp0
      rcases List.mem_append.mp hp0 with h | h
      · exact Or.inl h
      · right; simpa using h
  by_cases hk : p0.1 = pos
  · rw [if_pos hk] at heq
    subst heq
    simp only at hi
    rcases List.mem_append.mp hi with hold | hnew
    · rw [insert_cells1_lookup] at hold
      simp only [Option.getD_some] at hold
      unfold PyBoard.get at hold
      cases hs : lookupA pos b.cells with
      | none => rw [hs] at hold; simp at hold
      | some cell =>
        rw [hs] at hold
        exact Or.inl ⟨(pos, cell), lookupA_mem hs, hold⟩
    · exact Or.inr hnew
  · rw [if_neg hk] at heq
    subst heq
    rcases hp0mem with hmem | hpair
    · exact Or.inl ⟨p0, hmem, hi⟩
    · rw [hpair] at hi
      simp at hi

/-- Every `type_locs` pair of `b.insert pos es` was already present or
records one of the inserted entities at `pos`. -/
theorem insert_typeLocs_mem {α : Type} [DecidableEq α] {b : PyBoard α}
    {pos : Int × Int} {es : List α} :
    ∀ pe ∈ (b.insert pos es).typeLocs,
      pe ∈ b.typeLocs ∨ (pe.1 = pos ∧ pe.2 ∈ es) := by
  have haux : ∀ (l : List α) (tl : List ((Int × Int) × α)) pe,
      pe ∈ l.foldl (fun t e => tlAdd t pos e) tl →
      pe ∈ tl ∨ (pe.1 = pos ∧ pe.2 ∈ l) := by
    intro l
    induction l with
    | nil => intro tl pe h; exact Or.inl h
    | cons e rest ih =>
      intro tl pe h
      rcases ih (tlAdd tl pos e) pe h with h1 | h1
      · unfold tlAdd at h1
        by_cases hin : (pos, e) ∈ tl
        · rw [if_pos hin] at h1; exact Or.inl h1
        · rw [if_neg hin] at h1
          rcases List.mem_append.mp h1 with h2 | h2
          · exact Or.inl h2
          · simp at h2
            subst h2
            exact Or.inr ⟨rfl, List.mem_cons_self _ _⟩
      · exact Or.inr ⟨h1.1, List.mem_cons_of_mem _ h1.2⟩
  intro pe hpe
  exact haux es b.typeLocs pe hpe

/-- Identities listed in any cell are bounded by `nextId` whenever
`IdsBounded` holds (specialised to `Board.get`). -/
theorem get_ids_bounded {L : EngineState} (h : IdsBounded L)
    (q : Int × Int) : ∀ i ∈ L.board.get q, i < L.nextId := by
  intro i hi
  unfold PyBoard.get at hi
  cases hq : lookupA q L.board.cells with
  | none => rw [hq] at hi; simp at hi
  | some cell =>
    rw [hq] at hi
    exact h.1 (q, cell) (lookupA_mem hq) i hi

/- findSome? helper lemmas for cells extended with freshly spawned
barrels. -/

theorem findSome?_congr {α β : Type} {f g : α → Option β} :
    ∀ {l : List α}, (∀ a ∈ l, f a = g a) →
      l.findSome? f = l.findSome? g := by
  intro l
  induction l with
  | nil => intro _; rfl
  | cons a rest ih =>
    intro h
    rw [List.findSome?_cons, List.findSome?_cons,
      h a (List.mem_cons_self _ _)]
    cases g a with
    | none => exact ih (fun x hx => h x (List.mem_cons_of_mem _ hx))
    | some b => rfl

theorem findSome?_append_right_none {α β : Type} {f : α → Option β}
    {l2 : List α} (h2 : ∀ a ∈ l2, f a = none) :
    ∀ (l1 : List α), (l1 ++ l2).findSome? f = l1.findSome? f := by
  intro l1
  induction l1 with
  | nil =>
    simp only [List.nil_append, List.findSome?_nil]
    induction l2 with
    | nil => rfl
    | cons a rest ih =>
      rw [List.findSome?_cons, h2 a (List.mem_cons_self _ _)]
      exact ih (fun x hx => h2 x (List.mem_cons_of_mem _ hx))
  | cons a rest ih =>
    rw [List.cons_append, List.findSome?_cons, List.findSome?_cons]
    cases f a with
    | none => exact ih
    | some b => rfl

theorem extEvolves_of_unchanged (acc : EngineState) (hid : IdsBounded acc) :
    ExtEvolves acc acc (fun _ => []) := by
  refine ⟨hid, le_refl _, rfl, fun i _ => rfl, fun q => by simp,
    fun q => ⟨[], by simp, by simp⟩⟩

/-- One `extractorStep` evolves the state exactly by the spawn the C6
spec predicts for that snapshot entry. -/
theorem extractorStep_ok (acc : EngineState) (pe : (Int × Int) × Nat)
    (hid : IdsBounded acc) :
    ExtEvolves acc (extractorStep acc pe)
      (fun q => (extractorSpawnSpec acc q pe).toList) := by
  have htriv : extractorStep acc pe = acc →
      (∀ q, extractorSpawnSpec acc q pe = none) →
      ExtEvolves acc (extractorStep acc pe)
        (fun q => (extractorSpawnSpec acc q pe).toList) := by
    intro hstep hspec
    rw [hstep]
    have h0 := extEvolves_of_unchanged acc hid
    refine ⟨h0.1, h0.2.1, h0.2.2.1, h0.2.2.2.1, fun q => by simp [hspec],
      h0.2.2.2.2.2⟩
  rcases hstore : acc.store pe.2 with lk | ⟨c, v, lk⟩ | c |
    ⟨o, per, ph, lk⟩ | ⟨o, lk⟩ | ⟨c, n⟩ | ⟨o, a, lk⟩ | ⟨o, a, lk⟩ | ⟨a, lk⟩
  case resourceExtractor =>
    by_cases helig : acc.stepCount % per = ph - 1
    · cases hfind : (acc.board.get pe.1).findSome?
          (fun d => (acc.store d).tileColor) with
      | none =>
        apply htriv
        · simp [extractorStep, hstore, helig, hfind]
        · intro q
          by_cases hq : pe.1 = q
          · subst hq; simp [extractorSpawnSpec, hstore, helig, hfind]
          · simp [extractorSpawnSpec, hstore, hq]
      | some c =>
        have hstep : extractorStep acc pe =
            insertFresh acc pe.1 (Entity.barrel c o false) := by
          simp [extractorStep, hstore, helig, hfind]
        have hspec : ∀ q, extractorSpawnSpec acc q pe =
            (if q = pe.1 then some (Entity.barrel c o false) else none) := by
          intro q
          by_cases hq : pe.1 = q
          · subst hq
            simp [extractorSpawnSpec, hstore, helig, hfind]
          · have hq2 : ¬ q = pe.1 := fun h => hq h.symm
            simp [extractorSpawnSpec, hstore, hq, hq2]
        rw [hstep]
        have hnewget : ∀ q, (insertFresh acc pe.1
            (Entity.barrel c o false)).board.get q =
            (if q = pe.1 then acc.board.get pe.1 ++ [acc.nextId]
             else acc.board.get q) := by
          intro q
          exact insert_get acc.board pe.1 q [acc.nextId]
        refine ⟨?_, Nat.le_succ _, rfl, ?_, ?_, ?_⟩
        · constructor
          · intro pc hpc i hi
            rcases insert_cells_mem pc hpc i hi with ⟨pc0, hpc0, hipc0⟩ | hnew
            · exact Nat.lt_succ_of_lt (hid.1 pc0 hpc0 i hipc0)
            · simp at hnew
              subst hnew
              exact Nat.lt_succ_self _
          · intro pe2 hpe2
            rcases insert_typeLocs_mem pe2 hpe2 with hold | hnew
            · exact Nat.lt_succ_of_lt (hid.2 pe2 hold)
            · simp at hnew
              rw [hnew.2]
              exact Nat.lt_succ_self _
        · intro i hil
          simp only [insertFresh, updateStore]
          rw [if_neg (Nat.ne_of_lt hil)]
        · intro q
          have hmapcongr : ∀ q2, (acc.board.get q2).map (insertFresh acc pe.1
              (Entity.barrel c o false)).store =
              (acc.board.get q2).map acc.store := by
            intro q2
            apply List.map_congr_left
            intro i hi
            simp only [insertFresh, updateStore]
            rw [if_neg (Nat.ne_of_lt (get_ids_bounded hid q2 i hi))]
          simp only [hspec, hnewget]
          by_cases hq : q = pe.1
          · subst hq
            simp only [if_pos rfl, List.map_append, hmapcongr]
            simp [insertFresh, updateStore]
            intro a ha hae
            exact ((Nat.ne_of_lt (get_ids_bounded hid pe.1 a ha)) hae).elim
          · simp only [if_neg hq, hmapcongr]
            simp
        · intro q
          rw [hnewget q]
          by_cases hq : q = pe.1
          · subst hq
            rw [if_pos rfl]
            refine ⟨[acc.nextId], rfl, ?_⟩
            intro i hi
            simp at hi
            subst hi
            exact ⟨c, o, false, by simp [insertFresh, updateStore]⟩
          · rw [if_neg hq]
            exact ⟨[], by simp, by simp⟩
    · apply htriv
      · simp [extractorStep, hstore, helig]
      · intro q
        simp [extractorSpawnSpec, hstore, helig]
  all_goals {
    apply htriv
    · simp [extractorStep, hstore]
    · intro q
      simp [extractorSpawnSpec, hstore]
  }

theorem filterMap_congr_mem {α β : Type} {f g : α → Option β} :
    ∀ {l : List α}, (∀ a ∈ l, f a = g a) →
      l.filterMap f = l.filterMap g := by
  intro l
  induction l with
  | nil => intro _; rfl
  | cons a rest ih =>
    intro h
    rw [List.filterMap_cons, List.filterMap_cons,
      h a (List.mem_cons_self _ _),
      ih (fun x hx => h x (List.mem_cons_of_mem _ hx))]

theorem filterMap_cons_toList {α β : Type} (f : α → Option β) (a : α)
    (l : List α) :
    (a :: l).filterMap f = (f a).toList ++ l.filterMap f := by
  cases h : f a <;> simp [List.filterMap_cons, h]

/-- The C6 spawn spec only depends on the part of the state that the
extraction phase leaves untouched, so it is invariant along the phase:
earlier spawns (fresh Barrels appended to cells) change neither an
extractor's eligibility nor the first ResourceTile of a cell. -/
theorem extractorSpawnSpec_congr (acc acc1 : EngineState)
    (pe' : (Int × Int) × Nat) (q : Int × Int)
    (hid : IdsBounded acc)
    (hst : ∀ i, i < acc.nextId → acc1.store i = acc.store i)
    (hsc : acc1.stepCount = acc.stepCount)
    (hpe : pe'.2 < acc.nextId)
    (hcell : ∃ newids, acc1.board.get q = acc.board.get q ++ newids ∧
      ∀ i ∈ newids, ∃ c2 o2 lk2, acc1.store i = Entity.barrel c2 o2 lk2) :
    extractorSpawnSpec acc1 q pe' = extractorSpawnSpec acc q pe' := by
  obtain ⟨nids, hq, hbar⟩ := hcell
  unfold extractorSpawnSpec
  rw [hst pe'.2 hpe, hsc, hq]
  have hnone : ∀ i ∈ nids, (fun d => (acc1.store d).tileColor) i = none := by
    intro i hi
    obtain ⟨c2, o2, lk2, hb⟩ := hbar i hi
    simp [hb, Entity.tileColor]
  have hfs : (acc.board.get q ++ nids).findSome?
      (fun d => (acc1.store d).tileColor) =
      (acc.board.get q).findSome? (fun d => (acc.store d).tileColor) := by
    rw [findSome?_append_right_none hnone]
    exact findSome?_congr
      (fun i hi => by rw [hst i (get_ids_bounded hid q i hi)])
  rw [hfs]

/-- Folding `extractorStep` over any snapshot list whose identities are
already allocated evolves the state by exactly the predicted spawns. -/
theorem extractorFold_ok (ps : List ((Int × Int) × Nat)) :
    ∀ acc : EngineState, IdsBounded acc →
      (∀ pe ∈ ps, pe.2 < acc.nextId) →
      ExtEvolves acc (ps.foldl extractorStep acc)
        (fun q => ps.filterMap (fun pe => extractorSpawnSpec acc q pe)) := by
  induction ps with
  | nil =>
    intro acc hid _
    exact extEvolves_of_unchanged acc hid
  | cons pe rest ih =>
    intro acc hid hbound
    obtain ⟨hid1, hle1, hsc1, hst1, hmap1, hids1⟩ := extractorStep_ok acc pe hid
    have hboundrest : ∀ pe2 ∈ rest, pe2.2 < (extractorStep acc pe).nextId :=
      fun pe2 h2 =>
        lt_of_lt_of_le (hbound pe2 (List.mem_cons_of_mem _ h2)) hle1
    obtain ⟨hidr, hler, hscr, hstr, hmapr, hidsr⟩ :=
      ih (extractorStep acc pe) hid1 hboundrest
    have hspecongr : ∀ q,
        rest.filterMap
          (fun pe2 => extractorSpawnSpec (extractorStep acc pe) q pe2) =
        rest.filterMap (fun pe2 => extractorSpawnSpec acc q pe2) := by
      intro q
      apply filterMap_congr_mem
      intro pe2 h2
      exact extractorSpawnSpec_congr acc (extractorStep acc pe) pe2 q hid
        hst1 hsc1 (hbound pe2 (List.mem_cons_of_mem _ h2)) (hids1 q)
    refine ⟨hidr, le_trans hle1 hler,
      by rw [List.foldl_cons, hscr, hsc1], ?_, ?_, ?_⟩
    · intro i hi
      rw [List.foldl_cons, hstr i (lt_of_lt_of_le hi hle1), hst1 i hi]
    · intro q
      beta_reduce
      beta_reduce at hmapr hmap1
      rw [List.foldl_cons, hmapr q, hmap1 q, filterMap_cons_toList,
        hspecongr q, List.append_assoc]
    · intro q
      obtain ⟨n1, hq1, hbar1⟩ := hids1 q
      obtain ⟨n2, hq2, hbar2⟩ := hidsr q
      refine ⟨n1 ++ n2, ?_, ?_⟩
      · rw [List.foldl_cons, hq2, hq1, List.append_assoc]
      · intro i hi
        rcases List.mem_append.mp hi with h1 | h2
        · obtain ⟨c2, o2, lk2, hb⟩ := hbar1 i h1
          have hibound : i < (extractorStep acc pe).nextId := by
            have hmem : i ∈ (extractorStep acc pe).board.get q := by
              rw [hq1]; exact List.mem_append_right _ h1
            exact get_ids_bounded hid1 q i hmem
          refine ⟨c2, o2, lk2, ?_⟩
          rw [List.foldl_cons, hstr i hibound, hb]
        · obtain ⟨c2, o2, lk2, hb⟩ := hbar2 i h2
          refine ⟨c2, o2, lk2, ?_⟩
          rw [List.foldl_cons, hb]

/-- C6: in the resource-extraction phase, each cell of the board grows by
exactly one new Barrel per snapshotted extractor at that position whose
`step_count % period == phase - 1` and whose cell holds a ResourceTile —
that Barrel carrying the first matching tile's color and the extractor's
orientation as its velocity — and by nothing else; ineligible extractors
and extractors without a tile spawn nothing, regardless of how many
tiles are stacked. -/
theorem extractor_phase_exact (L : EngineState) (hid : IdsBounded L)
    (pos : Int × Int) :
    ((applyResourceExtractors L).board.get pos).map
        (applyResourceExtractors L).store =
      (L.board.get pos).map L.store ++
        (typeSnapshot L Entity.isExtractor).filterMap
          (fun pe => extractorSpawnSpec L pos pe) := by
  have hb : ∀ pe ∈ typeSnapshot L Entity.isExtractor, pe.2 < L.nextId := by
    intro pe hp
    exact hid.2 pe (List.mem_of_mem_filter hp)
  exact (extractorFold_ok (typeSnapshot L Entity.isExtractor) L hid
    hb).2.2.2.2.1 pos

/-- C6 witness: the extraction theorem applied to `c6Level`. -/
theorem extractor_phase_exact_witness :
    IdsBounded c6Level ∧
    ((applyResourceExtractors c6Level).board.get (2, 3)).map
        (applyResourceExtractors c6Level).store =
      (c6Level.board.get (2, 3)).map c6Level.store ++
        (typeSnapshot c6Level Entity.isExtractor).filterMap
          (fun pe => extractorSpawnSpec c6Level (2, 3) pe) :=
  ⟨by unfold IdsBounded; decide,
    extractor_phase_exact c6Level (by unfold IdsBounded; decide) (2, 3)⟩

/- C9: the actuation (piston) phase. -/

theorem lookup_eq_of_get_ne_nil {α : Type} [DecidableEq α]
    (b : PyBoard α) (pos : Int × Int) (h : b.get pos ≠ []) :
    lookupA pos b.cells = some (b.get pos) := by
  unfold PyBoard.get at h ⊢
  cases hl : lookupA pos b.cells with
  | none => rw [hl] at h; simp at h
  | some c => simp [hl]

/-- Removing a single present entity (with its `type_locs` pair present)
succeeds and erases exactly that occurrence. -/
theorem remove_single_ok {α : Type} [DecidableEq α] (b : PyBoard α)
    (pos : Int × Int) (d : α) (cell : List α)
    (hcell : lookupA pos b.cells = some cell) (hd : d ∈ cell)
    (htl : (pos, d) ∈ b.typeLocs) :
    b.remove pos [d] =
      (none, PyBoard.mk (setA pos (cell.erase d) b.cells)
        (b.typeLocs.erase (pos, d))) := by
  unfold PyBoard.remove
  rw [hcell]
  simp [removeLoop, hd, htl]

theorem tlAdd_mem_preserve {α : Type} [DecidableEq α]
    {tl : List ((Int × Int) × α)} {x : (Int × Int) × α}
    (hx : x ∈ tl) (pos : Int × Int) (e : α) : x ∈ tlAdd tl pos e := by
  unfold tlAdd
  by_cases h : (pos, e) ∈ tl
  · rw [if_pos h]; exact hx
  · rw [if_neg h]; exact List.mem_append_left _ hx

/-- `pistonStep` on an activated piston is the push loop over the
snapshot of the faced cell. -/
theorem pistonStep_activated (acc : EngineState) (pe : (Int × Int) × Nat)
    (o : Dir) (lk : Bool)
    (h : acc.store pe.2 = Entity.piston o (some true) lk) :
    pistonStep acc pe = (acc.board.get (posAdd pe.1 o.vec)).foldlM
      (pistonPushStep o (posAdd pe.1 o.vec)) acc := by
  unfold pistonStep
  rw [h]
  simp

theorem pistonFold_go (L : EngineState) (o : Dir) (focus dest : Int × Int)
    (hdest : dest = posAdd focus o.vec) (hne : focus ≠ dest) :
    ∀ (rest done : List Nat), (done ++ rest).Nodup →
      ∀ A : EngineState, PistInv L A o focus dest done rest →
      ∃ A2, rest.foldlM (pistonPushStep o focus) A = Except.ok A2 ∧
        PistInv L A2 o focus dest (done ++ rest) [] := by
  intro rest
  induction rest with
  | nil =>
    intro done _ A hinv
    refine ⟨A, rfl, ?_⟩
    rw [List.append_nil]
    exact hinv
  | cons d cs ih =>
    intro done hnd A hinv
    obtain ⟨hfoc, hdst, hoth, hmv, hnmv, htl⟩ := hinv
    have hndm : (d :: (done ++ cs)).Nodup := List.nodup_middle.mp hnd
    have hdnotin : d ∉ done ++ cs := (List.nodup_cons.mp hndm).1
    have hdnotdone : d ∉ done := fun h => hdnotin (List.mem_append_left _ h)
    have hdnotcs : d ∉ cs := fun h => hdnotin (List.mem_append_right _ h)
    have hAd : A.store d = L.store d := by
      apply hnmv
      intro hcontra
      exact hdnotdone (List.mem_of_mem_filter hcontra)
    -- one push step
    cases hm : (L.store d).moves with
    | false =>
      -- not a mover: no-op
      have hstep : pistonPushStep o focus A d = Except.ok A := by
        unfold pistonPushStep
        rw [hAd, hm]
        rfl
      have hinv2 : PistInv L A o focus dest (done ++ [d]) cs := by
        refine ⟨?_, ?_, hoth, ?_, ?_, ?_⟩
        · rw [hfoc, List.filter_append]
          simp [hm]
        · rw [hdst, List.filter_append]
          simp [hm]
        · intro x hx
          apply hmv
          rw [List.filter_append] at hx
          rcases List.mem_append.mp hx with h1 | h1
          · exact h1
          · simp [hm] at h1
        · intro x hx
          apply hnmv
          intro hcontra
          apply hx
          rw [List.filter_append]
          exact List.mem_append_left _ hcontra
        · intro x hx
          exact htl x (List.mem_cons_of_mem _ hx)
      have hnd2 : ((done ++ [d]) ++ cs).Nodup := by
        rw [List.append_assoc]
        exact hnd
      obtain ⟨A2, hfold, hfin⟩ := ih (done ++ [d]) hnd2 A hinv2
      refine ⟨A2, ?_, ?_⟩
      · rw [List.foldlM_cons, hstep]
        exact hfold
      · rw [List.append_assoc] at hfin
        simpa using hfin
    | true =>
      -- a mover: velocity set, removed from focus, inserted at dest
      have hfocne : A.board.get focus ≠ [] := by
        rw [hfoc]
        intro hcontra
        exact absurd (List.append_eq_nil.mp hcontra).2 (by simp)
      have hlook := lookup_eq_of_get_ne_nil A.board focus hfocne
      have hdin : d ∈ A.board.get focus := by
        rw [hfoc]
        exact List.mem_append_right _ (List.mem_cons_self _ _)
      have hrem := remove_single_ok A.board focus d (A.board.get focus)
        hlook hdin (htl d (List.mem_cons_self _ _))
      have herase : (A.board.get focus).erase d =
          done.filter (fun x => !(L.store x).moves) ++ cs := by
        rw [hfoc]
        have hdnm : d ∉ done.filter (fun x => !(L.store x).moves) :=
          fun h => hdnotdone (List.mem_of_mem_filter h)
        rw [List.erase_append_right _ hdnm, List.erase_cons_head]
      have hstep : pistonPushStep o focus A d = Except.ok
          { A with
            store := updateStore A.store d ((L.store d).setVelocity o)
            board := (PyBoard.mk
              (setA focus ((A.board.get focus).erase d) A.board.cells)
              (A.board.typeLocs.erase (focus, d))).insert
                (posAdd focus o.vec) [d] } := by
        unfold pistonPushStep
        rw [hAd, hm, if_pos rfl, hrem]
      set B : PyBoard Nat := PyBoard.mk
        (setA focus ((A.board.get focus).erase d) A.board.cells)
        (A.board.typeLocs.erase (focus, d)) with hB
      set A1 : EngineState :=
        { A with
          store := updateStore A.store d ((L.store d).setVelocity o)
          board := B.insert (posAdd focus o.vec) [d] } with hA1
      -- the cells of B
      have hBfocus : B.get focus =
          done.filter (fun x => !(L.store x).moves) ++ cs := by
        unfold PyBoard.get
        rw [hB]
        show (lookupA focus (setA focus ((A.board.get focus).erase d)
          A.board.cells)).getD [] = _
        rw [lookupA_setA_self, hlook]
        simpa using herase
      have hBother : ∀ q, q ≠ focus → B.get q = A.board.get q := by
        intro q hq
        unfold PyBoard.get
        rw [hB]
        show (lookupA q (setA focus ((A.board.get focus).erase d)
          A.board.cells)).getD [] = _
        rw [lookupA_setA_ne _ _ hq]
      have hinv2 : PistInv L A1 o focus dest (done ++ [d]) cs := by
        rw [← hdest] at hA1
        refine ⟨?_, ?_, ?_, ?_, ?_, ?_⟩
        · rw [hA1]
          show (B.insert dest [d]).get focus = _
          rw [insert_get, if_neg hne, hBfocus, List.filter_append]
          simp [hm]
        · rw [hA1]
          show (B.insert dest [d]).get dest = _
          rw [insert_get, if_pos rfl, hBother dest (fun h => hne h.symm),
            hdst, List.filter_append]
          simp [hm]
        · intro q hq1 hq2
          rw [hA1]
          show (B.insert dest [d]).get q = _
          rw [insert_get, if_neg hq2, hBother q hq1]
          exact hoth q hq1 hq2
        · intro x hx
          rw [List.filter_append] at hx
          rcases List.mem_append.mp hx with h1 | h1
          · have hxd : x ≠ d := fun hxeq =>
              hdnotdone (hxeq ▸ List.mem_of_mem_filter h1)
            rw [hA1]
            show updateStore A.store d ((L.store d).setVelocity o) x = _
            unfold updateStore
            rw [if_neg hxd]
            exact hmv x h1
          · simp [hm] at h1
            rw [h1, hA1]
            show updateStore A.store d ((L.store d).setVelocity o) d = _
            unfold updateStore
            rw [if_pos rfl]
        · intro x hx
          have hxd : x ≠ d := by
            intro hxeq
            apply hx
            rw [List.filter_append]
            apply List.mem_append_right
            simp [hxeq, hm]
          rw [hA1]
          show updateStore A.store d ((L.store d).setVelocity o) x = _
          unfold updateStore
          rw [if_neg hxd]
          apply hnmv
          intro hcontra
          apply hx
          rw [List.filter_append]
          exact List.mem_append_left _ hcontra
        · intro x hx
          have hxd : x ≠ d := fun hxeq => hdnotcs (hxeq ▸ hx)
          have hpair : (focus, x) ∈ A.board.typeLocs.erase (focus, d) := by
            apply (List.mem_erase_of_ne ?_).mpr
              (htl x (List.mem_cons_of_mem _ hx))
            intro hcontra
            exact hxd (congrArg Prod.snd hcontra)
          rw [hA1]
          show (focus, x) ∈ (B.insert dest [d]).typeLocs
          unfold PyBoard.insert
          simp only [List.foldl_cons, List.foldl_nil]
          exact tlAdd_mem_preserve hpair dest d
      have hnd2 : ((done ++ [d]) ++ cs).Nodup := by
        rw [List.append_assoc]
        exact hnd
      obtain ⟨A2, hfold, hfin⟩ := ih (done ++ [d]) hnd2 A1 hinv2
      refine ⟨A2, ?_, ?_⟩
      · rw [List.foldlM_cons, hstep]
        exact hfold
      · rw [List.append_assoc] at hfin
        simpa using hfin

/-- C9: an activated Piston relocates every `moves = true` entity in the
cell it faces by one further cell along the piston's orientation and
sets that entity's velocity to the orientation, unconditionally — the
statement carries no hypothesis whatsoever about the destination cell,
which may contain `stops = true` entities (`apply_pistons` performs no
`is_walkable` check, unlike the translation phase).  Stated for a board
whose piston snapshot holds a single activated piston. -/
theorem piston_pushes_unconditionally (L : EngineState)
    (pos : Int × Int) (i : Nat) (o : Dir) (lk : Bool)
    (hsnap : typeSnapshot L Entity.isPiston = [(pos, i)])
    (hpist : L.store i = Entity.piston o (some true) lk)
    (ho : o ≠ Dir.NONE)
    (hsync : BoardSync L.board)
    (hnd : (L.board.get (posAdd pos o.vec)).Nodup) :
    ∃ L2, applyPistons L = Except.ok L2 ∧
      L2.board.get (posAdd pos o.vec) =
        (L.board.get (posAdd pos o.vec)).filter
          (fun d => !(L.store d).moves) ∧
      L2.board.get (posAdd (posAdd pos o.vec) o.vec) =
        L.board.get (posAdd (posAdd pos o.vec) o.vec) ++
          (L.board.get (posAdd pos o.vec)).filter
            (fun d => (L.store d).moves) ∧
      (∀ d ∈ (L.board.get (posAdd pos o.vec)).filter
          (fun d => (L.store d).moves),
        L2.store d = (L.store d).setVelocity o) ∧
      (∀ d, d ∉ (L.board.get (posAdd pos o.vec)).filter
          (fun d => (L.store d).moves) → L2.store d = L.store d) ∧
      (∀ q, q ≠ posAdd pos o.vec → q ≠ posAdd (posAdd pos o.vec) o.vec →
        L2.board.get q = L.board.get q) := by
  have hvec : o.vec ≠ ((0 : Int), (0 : Int)) := by
    cases o
    · exact absurd rfl ho
    all_goals simp [Dir.vec]
  have hne : posAdd pos o.vec ≠ posAdd (posAdd pos o.vec) o.vec := by
    intro h
    have h1 : (posAdd pos o.vec).1 = (posAdd pos o.vec).1 + (o.vec).1 :=
      congrArg Prod.fst h
    have h2 : (posAdd pos o.vec).2 = (posAdd pos o.vec).2 + (o.vec).2 :=
      congrArg Prod.snd h
    apply hvec
    have hv1 : (o.vec).1 = 0 := by omega
    have hv2 : (o.vec).2 = 0 := by omega
    exact Prod.ext hv1 hv2
  have hinit : PistInv L L o (posAdd pos o.vec)
      (posAdd (posAdd pos o.vec) o.vec) []
      (L.board.get (posAdd pos o.vec)) := by
    refine ⟨by simp, by simp, fun q _ _ => rfl, by simp, fun d _ => rfl, ?_⟩
    intro d hd
    unfold PyBoard.get at hd
    cases hl : lookupA (posAdd pos o.vec) L.board.cells with
    | none => rw [hl] at hd; simp at hd
    | some cell =>
      rw [hl] at hd
      exact hsync (posAdd pos o.vec, cell) (lookupA_mem hl) d hd
  obtain ⟨A2, hfold, hfin⟩ := pistonFold_go L o (posAdd pos o.vec)
    (posAdd (posAdd pos o.vec) o.vec) rfl hne
    (L.board.get (posAdd pos o.vec)) [] (by simpa using hnd) L hinit
  obtain ⟨hfoc, hdst, hoth, hmv, hnmv, _⟩ := hfin
  refine ⟨A2, ?_, ?_, ?_, ?_, ?_, ?_⟩
  · unfold applyPistons
    rw [hsnap, List.foldlM_cons,
      pistonStep_activated L (pos, i) o lk hpist, hfold]
    rfl
  · simpa using hfoc
  · simpa using hdst
  · intro d hd
    apply hmv
    simpa using hd
  · intro d hd
    apply hnmv
    simpa using hd
  · exact hoth

/-- C9 witness: on `c9Level` the destination cell (2, 0) holds a
`stops = true` Barrier, and the push theorem still applies — the barrel
is pushed into the blocked cell. -/
theorem piston_pushes_unconditionally_witness :
    ((c9Level.store 2).stops = true ∧ (2 : Nat) ∈ c9Level.board.get (2, 0) ∧
      typeSnapshot c9Level Entity.isPiston = [((0, 0), 0)] ∧
      c9Level.store 0 = Entity.piston Dir.EAST (some true) false ∧
      Dir.EAST ≠ Dir.NONE ∧ BoardSync c9Level.board ∧
      (c9Level.board.get (posAdd (0, 0) Dir.EAST.vec)).Nodup) ∧
    (∃ L2, applyPistons c9Level = Except.ok L2 ∧
      L2.board.get (posAdd (0, 0) Dir.EAST.vec) =
        (c9Level.board.get (posAdd (0, 0) Dir.EAST.vec)).filter
          (fun d => !(c9Level.store d).moves) ∧
      L2.board.get (posAdd (posAdd (0, 0) Dir.EAST.vec) Dir.EAST.vec) =
        c9Level.board.get
            (posAdd (posAdd (0, 0) Dir.EAST.vec) Dir.EAST.vec) ++
          (c9Level.board.get (posAdd (0, 0) Dir.EAST.vec)).filter
            (fun d => (c9Level.store d).moves) ∧
      (∀ d ∈ (c9Level.board.get (posAdd (0, 0) Dir.EAST.vec)).filter
          (fun d => (c9Level.store d).moves),
        L2.store d = (c9Level.store d).setVelocity Dir.EAST) ∧
      (∀ d, d ∉ (c9Level.board.get (posAdd (0, 0) Dir.EAST.vec)).filter
          (fun d => (c9Level.store d).moves) →
        L2.store d = c9Level.store d) ∧
      (∀ q, q ≠ posAdd (0, 0) Dir.EAST.vec →
        q ≠ posAdd (posAdd (0, 0) Dir.EAST.vec) Dir.EAST.vec →
        L2.board.get q = c9Level.board.get q)) :=
  ⟨⟨by decide, by decide, by decide, by decide, by decide,
      by unfold BoardSync; decide, by decide⟩,
    piston_pushes_unconditionally c9Level (0, 0) 0 Dir.EAST false
      (by decide) (by decide) (by decide)
      (by unfold BoardSync; decide) (by decide)⟩

/- State-manipulation lemmas. -/

theorem vis_mark (s : RSt) (p x : Nat × Nat) :
    (s.mark p).vis x = (if x = p then true else s.vis x) := rfl

theorem st_mark (s : RSt) (p x : Nat × Nat) :
    (s.mark p).st x = s.st x := rfl

theorem vis_write (s : RSt) (p : Nat × Nat) (v : Option Bool)
    (x : Nat × Nat) : (s.write p v).vis x = s.vis x := rfl

theorem st_write (s : RSt) (p : Nat × Nat) (v : Option Bool)
    (x : Nat × Nat) :
    (s.write p v).st x = (if x = p then v else s.st x) := rfl

theorem validP_mem_allPorts (g : WGraph) (p : Nat × Nat) :
    g.validP p ↔ p ∈ allPorts g := by
  unfold WGraph.validP allPorts
  simp only [List.mem_flatten, List.mem_map, List.mem_range]
  constructor
  · intro ⟨h1, h2⟩
    exact ⟨(List.range (g.nports p.1)).map (fun k => (p.1, k)),
      ⟨p.1, h1, rfl⟩, by
        simp only [List.mem_map, List.mem_range]
        exact ⟨p.2, h2, rfl⟩⟩
  · intro ⟨l, ⟨e, he, hl⟩, hp⟩
    subst hl
    simp only [List.mem_map, List.mem_range] at hp
    obtain ⟨k, hk, hkp⟩ := hp
    subst hkp
    exact ⟨he, hk⟩

theorem filter_length_le {α : Type} (p q : α → Bool) :
    ∀ l : List α, (∀ a ∈ l, p a = true → q a = true) →
      (l.filter p).length ≤ (l.filter q).length := by
  intro l
  induction l with
  | nil => intro _; exact le_refl _
  | cons a rest ih =>
    intro h
    have hrest := ih (fun x hx => h x (List.mem_cons_of_mem _ hx))
    by_cases hpa : p a = true
    · rw [List.filter_cons_of_pos hpa,
        List.filter_cons_of_pos (h a (List.mem_cons_self _ _) hpa)]
      simpa using hrest
    · rw [List.filter_cons_of_neg (by simpa using hpa)]
      by_cases hqa : q a = true
      · rw [List.filter_cons_of_pos hqa]
        exact le_trans hrest (Nat.le_succ _)
      · rw [List.filter_cons_of_neg (by simpa using hqa)]
        exact hrest

theorem filter_length_lt {α : Type} [DecidableEq α] (p q : α → Bool)
    (x : α) : ∀ l : List α, (∀ a ∈ l, p a = true → q a = true) →
      x ∈ l → p x = false → q x = true →
      (l.filter p).length < (l.filter q).length := by
  intro l
  induction l with
  | nil => intro _ hx; simp at hx
  | cons a rest ih =>
    intro h hx hpx hqx
    have hmono := fun a ha => h a (List.mem_cons_of_mem _ ha)
    rcases List.mem_cons.mp hx with hax | hax
    · subst hax
      rw [List.filter_cons_of_neg (by simp [hpx]),
        List.filter_cons_of_pos hqx]
      exact Nat.lt_succ_of_le (filter_length_le p q rest hmono)
    · have hlt := ih hmono hax hpx hqx
      by_cases hpa : p a = true
      · rw [List.filter_cons_of_pos hpa,
          List.filter_cons_of_pos (h a (List.mem_cons_self _ _) hpa)]
        simpa using hlt
      · rw [List.filter_cons_of_neg (by simpa using hpa)]
        by_cases hqa : q a = true
        · rw [List.filter_cons_of_pos hqa]
          exact Nat.lt_succ_of_lt hlt
        · rw [List.filter_cons_of_neg (by simpa using hqa)]
          exact hlt

theorem unvisCount_le_of_mono (g : WGraph) (s s2 : RSt)
    (h : ∀ x, s.vis x = true → s2.vis x = true) :
    unvisCount g s2 ≤ unvisCount g s := by
  apply filter_length_le
  intro a _ ha
  simp only [Bool.not_eq_true'] at ha ⊢
  by_cases hv : s.vis a = true
  · rw [h a hv] at ha; exact absurd ha (by simp)
  · simpa using hv

theorem unvisCount_lt_of_mark (g : WGraph) (s : RSt) (p : Nat × Nat)
    (hval : g.validP p) (hfresh : s.vis p = false) :
    unvisCount g (s.mark p) < unvisCount g s := by
  apply filter_length_lt _ _ p
  · intro a _ ha
    simp only [Bool.not_eq_true'] at ha ⊢
    rw [vis_mark] at ha
    by_cases hap : a = p
    · rw [if_pos hap] at ha; exact absurd ha (by simp)
    · rw [if_neg hap] at ha; exact ha
  · exact (validP_mem_allPorts g p).mp hval
  · simp [vis_mark]
  · simp [hfresh]

theorem unvisCount_mark_write (g : WGraph) (s : RSt) (p : Nat × Nat)
    (v : Option Bool) :
    unvisCount g ((s.mark p).write p v) = unvisCount g (s.mark p) := rfl

/- Computation rules for `resolveP`, `resolveOutP`, `resolveIns`. -/

theorem resolveP_visited (g : WGraph) (fuel : Nat) (p : Nat × Nat)
    (s : RSt) (h : s.vis p = true) :
    resolveP g (fuel + 1) p s = (Except.ok (s.st p), s) := by
  simp [resolveP, h]

theorem resolveP_unconnected (g : WGraph) (fuel : Nat) (p : Nat × Nat)
    (s : RSt) (hv : s.vis p = false) (hp : g.partner p = none) :
    resolveP g (fuel + 1) p s =
      (Except.ok (some false), (s.mark p).write p (some false)) := by
  simp [resolveP, hv, hp]

theorem resolveP_fresh_input (g : WGraph) (fuel : Nat) (p q : Nat × Nat)
    (s : RSt) (hv : s.vis p = false) (hp : g.partner p = some q)
    (hinp : p.2 < (g.ent p.1).numIn) :
    resolveP g (fuel + 1) p s =
      ((resolveP g fuel q (s.mark p)).1,
        match (resolveP g fuel q (s.mark p)).1 with
        | Except.error _ => (resolveP g fuel q (s.mark p)).2
        | Except.ok v => ((resolveP g fuel q (s.mark p)).2).write p v) := by
  simp only [resolveP, hv, Bool.false_eq_true, if_false, hp, hinp,
    if_true]
  rcases resolveP g fuel q (s.mark p) with ⟨r1, s2⟩
  cases r1 <;> rfl

theorem resolveP_fresh_output (g : WGraph) (fuel : Nat) (p q : Nat × Nat)
    (s : RSt) (hv : s.vis p = false) (hp : g.partner p = some q)
    (hninp : ¬ p.2 < (g.ent p.1).numIn) :
    resolveP g (fuel + 1) p s =
      ((resolveOutP g fuel p (s.mark p)).1,
        match (resolveOutP g fuel p (s.mark p)).1 with
        | Except.error _ => (resolveOutP g fuel p (s.mark p)).2
        | Except.ok v => ((resolveOutP g fuel p (s.mark p)).2).write p v) := by
  simp only [resolveP, hv, Bool.false_eq_true, if_false, hp, hninp]
  rcases resolveOutP g fuel p (s.mark p) with ⟨r1, s2⟩
  cases r1 <;> rfl

theorem resolveOutP_source (g : WGraph) (fuel : Nat) (p : Nat × Nat)
    (s : RSt) (b : Bool) (h : (g.ent p.1).kind = WKind.source b) :
    resolveOutP g fuel p s = (Except.ok (some b), s) := by
  simp [resolveOutP, h]

theorem resolveOutP_gate (g : WGraph) (fuel : Nat) (p : Nat × Nat)
    (s : RSt)
    (h : (g.ent p.1).kind = WKind.andGate ∨
      (g.ent p.1).kind = WKind.orGate ∨
      (g.ent p.1).kind = WKind.notGate) :
    resolveOutP g fuel p s =
      ((resolveIns g fuel p.1 (List.range (g.ent p.1).numIn) s).1.map
          (fun vs => some (evalGate (g.ent p.1).kind vs)),
        (resolveIns g fuel p.1 (List.range (g.ent p.1).numIn) s).2) := by
  rcases h with h | h | h <;>
  · simp only [resolveOutP, h]
    rcases resolveIns g fuel p.1 (List.range (g.ent p.1).numIn) s
      with ⟨r1, s2⟩
    cases r1 <;> rfl

theorem resolveIns_visited (g : WGraph) (fuel : Nat) (e : Nat) :
    ∀ (ks : List Nat) (s : RSt), 0 < fuel →
      (∀ k ∈ ks, s.vis (e, k) = true) →
      resolveIns g fuel e ks s =
        (Except.ok (ks.map (fun k => s.st (e, k))), s) := by
  intro ks
  induction ks with
  | nil => intro s _ _; simp [resolveIns]
  | cons k rest ih =>
    intro s hfuel hvis
    match fuel, hfuel with
    | f + 1, _ =>
      simp only [resolveIns]
      rw [resolveP_visited g f (e, k) s (hvis k (List.mem_cons_self _ _))]
      simp [ih s (Nat.succ_pos f)
        (fun x hx => hvis x (List.mem_cons_of_mem _ hx))]

theorem mark_vis_of_vis (s : RSt) (p x : Nat × Nat)
    (hx : s.vis x = true) : (s.mark p).vis x = true := by
  rw [vis_mark]
  split
  · rfl
  · exact hx

theorem goodS_mark (s : RSt) (p : Nat × Nat) (S : List (Nat × Nat))
    (hgood : GoodS s S) : GoodS (s.mark p) (p :: S) := by
  intro x hx hxn
  have hxp : x ≠ p := fun he => hxn (he ▸ List.mem_cons_self _ _)
  have hxS : x ∉ S := fun hxs => hxn (List.mem_cons_of_mem _ hxs)
  rw [vis_mark, if_neg hxp] at hx
  exact hgood x hx hxS

theorem stackInv_mark (g : WGraph) (s : RSt) (p : Nat × Nat)
    (S : List (Nat × Nat)) (hstack : StackInv g s S)
    (hcond : ¬ g.isInp p → ∀ r, g.partner p = some r →
      (s.mark p).vis r = true) :
    StackInv g (s.mark p) (p :: S) := by
  intro x hx
  rcases List.mem_cons.mp hx with hxp | hxS
  · subst hxp
    exact ⟨by rw [vis_mark, if_pos rfl], hcond⟩
  · obtain ⟨h1, h2⟩ := hstack x hxS
    exact ⟨mark_vis_of_vis s p x h1,
      fun hni r hr => mark_vis_of_vis s p r (h2 hni r hr)⟩

/-- Assembling the `ResOK` conclusions for a fresh port `p` whose frame
computed value `vq` in state `s2` and caches it. -/
theorem resOK_write (g : WGraph) (p : Nat × Nat) (s : RSt)
    (S : List (Nat × Nat)) (s2 : RSt) (vq : Option Bool)
    (hvisf : s.vis p = false)
    (hmono2 : ∀ x, (s.mark p).vis x = true → s2.vis x = true)
    (hstpres2 : ∀ x, (s.mark p).vis x = true → s2.st x = (s.mark p).st x)
    (hgood2 : GoodS s2 (p :: S))
    (hsome : vq.isSome = true)
    (huncon2 : ∀ x, (s.mark p).vis x = false → s2.vis x = true →
      g.partner x = none → s2.st x = some false)
    (hp8 : g.partner p = none → vq = some false) :
    ResOK g p s S (Except.ok vq, s2.write p vq) := by
  have hvisp2 : s2.vis p = true := hmono2 p (by rw [vis_mark, if_pos rfl])
  refine ⟨⟨vq, rfl⟩, ?_, ?_, ?_, ?_, ?_, ?_, ?_⟩
  · intro x hx
    show (s2.write p vq).vis x = true
    rw [vis_write]
    exact hmono2 x (mark_vis_of_vis s p x hx)
  · show (s2.write p vq).vis p = true
    rw [vis_write]
    exact hvisp2
  · intro x hx
    have hxp : x ≠ p := fun he => by
      rw [he, hvisf] at hx
      exact absurd hx (by simp)
    show (s2.write p vq).st x = s.st x
    rw [st_write, if_neg hxp,
      hstpres2 x (by rw [vis_mark, if_neg hxp]; exact hx)]
    rfl
  · intro x hx hxS
    show ((s2.write p vq).st x).isSome = true
    rw [vis_write] at hx
    rw [st_write]
    by_cases hxp : x = p
    · rw [if_pos hxp]
      exact hsome
    · rw [if_neg hxp]
      refine hgood2 x hx ?_
      intro hc
      rcases List.mem_cons.mp hc with h | h
      · exact hxp h
      · exact hxS h
  · intro hv
    simp [hvisf] at hv
  · intro _
    constructor
    · show ((s2.write p vq).st p).isSome = true
      rw [st_write, if_pos rfl]
      exact hsome
    · show Except.ok vq = Except.ok ((s2.write p vq).st p)
      rw [st_write, if_pos rfl]
  · intro x hxf hxt hxnone
    show (s2.write p vq).st x = some false
    rw [vis_write] at hxt
    rw [st_write]
    by_cases hxp : x = p
    · rw [if_pos hxp]
      exact hp8 (hxp ▸ hxnone)
    · rw [if_neg hxp]
      exact huncon2 x (by rw [vis_mark, if_neg hxp]; exact hxf) hxt hxnone

/-- The inductive heart of C3: one extra unit of fuel suffices for any
state with fewer unvisited ports than the previous fuel bound. -/
theorem mainStep (g : WGraph) (fuel : Nat)
    (ihMain : MainP g fuel) (ihIns : InsP g fuel) : MainP g (fuel + 1) := by
  intro p s S hwf hfuel hgood hstack hvalid hpre
  by_cases hvist : s.vis p = true
  · rw [resolveP_visited g fuel p s hvist]
    refine ⟨⟨s.st p, rfl⟩, fun x hx => hx, hvist, fun x _ => rfl, hgood,
      fun _ => ⟨rfl, rfl⟩, ?_, ?_⟩
    · intro hf
      simp [hf] at hvist
    · intro x hxf hxt _
      simp [hxf] at hxt
  · have hvisf : s.vis p = false := by simpa using hvist
    have hcmark : unvisCount g (s.mark p) < fuel := by
      have := unvisCount_lt_of_mark g s p hvalid hvisf
      omega
    cases hpartner : g.partner p with
    | none =>
      rw [resolveP_unconnected g fuel p s hvisf hpartner]
      refine resOK_write g p s S (s.mark p) (some false) hvisf
        (fun x hx => hx) (fun x _ => rfl) (goodS_mark s p S hgood) rfl
        ?_ (fun _ => rfl)
      intro x hxf hxt _
      rw [hxf] at hxt
      exact absurd hxt (by simp)
    | some q =>
      have hwire : (p, q) ∈ g.wires := lookupA_mem hpartner
      obtain ⟨hsymm, hvp2, hvq, hio⟩ := hwf.1 (p, q) hwire
      have hpartnerq : g.partner q = some p := hsymm
      by_cases hinp : p.2 < (g.ent p.1).numIn
      · -- input port: recurse into the partner output
        have hisinp : g.isInp p := hinp
        have hqout : ¬ g.isInp q := hio.mp hisinp
        have hqnotS : q ∉ S := by
          intro hqS
          have h2 := (hstack q hqS).2 hqout p hpartnerq
          simp [hvisf] at h2
        have hqnep : q ≠ p := fun hqp => hqout (hqp ▸ hisinp)
        rw [resolveP_fresh_input g fuel p q s hvisf hpartner hinp]
        by_cases hqvis : s.vis q = true
        · have hqvism : (s.mark p).vis q = true := mark_vis_of_vis s p q hqvis
          have hinner : resolveP g fuel q (s.mark p) =
              (Except.ok ((s.mark p).st q), s.mark p) := by
            cases fuel with
            | zero => exact absurd hcmark (Nat.not_lt_zero _)
            | succ f => exact resolveP_visited g f q (s.mark p) hqvism
          rw [hinner]
          show ResOK g p s S (Except.ok ((s.mark p).st q),
            (s.mark p).write p ((s.mark p).st q))
          refine resOK_write g p s S (s.mark p) ((s.mark p).st q) hvisf
            (fun x hx => hx) (fun x _ => rfl) (goodS_mark s p S hgood)
            (hgood q hqvis hqnotS) ?_ ?_
          · intro x hxf hxt _
            rw [hxf] at hxt
            exact absurd hxt (by simp)
          · intro hn
            rw [hpartner] at hn
            exact absurd hn (by simp)
        · have hqm : (s.mark p).vis q = false := by
            rw [vis_mark, if_neg hqnep]
            simpa using hqvis
          have hpreq : PreP g (s.mark p) q := by
            right; right
            intro r hr
            rw [hpartnerq] at hr
            have hrp : p = r := by injection hr
            rw [← hrp, vis_mark, if_pos rfl]
          have hres := ihMain q (s.mark p) (p :: S) hwf hcmark
            (goodS_mark s p S hgood)
            (stackInv_mark g s p S hstack (fun hni => absurd hisinp hni))
            hvq hpreq
          obtain ⟨⟨vq2, hvq1⟩, hmono2, hvisq2, hstpres2, hgood2, _,
            hfresh2, huncon2⟩ := hres
          obtain ⟨hsome2, hret2⟩ := hfresh2 hqm
          rw [hvq1]
          show ResOK g p s S (Except.ok vq2,
            ((resolveP g fuel q (s.mark p)).2).write p vq2)
          have hvq2eq : vq2 = (resolveP g fuel q (s.mark p)).2.st q := by
            rw [hvq1] at hret2
            injection hret2
          refine resOK_write g p s S _ vq2 hvisf hmono2 hstpres2 hgood2
            ?_ huncon2 ?_
          · rw [hvq2eq]
            exact hsome2
          · intro hn
            rw [hpartner] at hn
            exact absurd hn (by simp)
      · -- output port: delegate to resolve_output_port
        have hnotinp : ¬ g.isInp p := hinp
        rw [resolveP_fresh_output g fuel p q s hvisf hpartner hinp]
        by_cases hsrc : ∃ b, (g.ent p.1).kind = WKind.source b
        · obtain ⟨b, hkind⟩ := hsrc
          rw [resolveOutP_source g fuel p (s.mark p) b hkind]
          show ResOK g p s S (Except.ok (some b),
            (s.mark p).write p (some b))
          refine resOK_write g p s S (s.mark p) (some b) hvisf
            (fun x hx => hx) (fun x _ => rfl) (goodS_mark s p S hgood)
            rfl ?_ ?_
          · intro x hxf hxt _
            rw [hxf] at hxt
            exact absurd hxt (by simp)
          · intro hn
            rw [hpartner] at hn
            exact absurd hn (by simp)
        · by_cases hpist : (g.ent p.1).kind = WKind.pistonRepeat
          · -- pistons have no output ports
            have h0 := hwf.2 p.1 hvalid.1 hpist
            have h2 := hvalid.2
            unfold WGraph.nports at h2
            rw [h0] at h2
            simp at h2
            exact absurd h2 hinp
          · have hgate : (g.ent p.1).kind = WKind.andGate ∨
                (g.ent p.1).kind = WKind.orGate ∨
                (g.ent p.1).kind = WKind.notGate := by
              rcases hk2 : (g.ent p.1).kind with _ | _ | _ | b2 | _
              · exact Or.inl rfl
              · exact Or.inr (Or.inl rfl)
              · exact Or.inr (Or.inr rfl)
              · exact absurd ⟨b2, hk2⟩ hsrc
              · exact absurd hk2 hpist
            rw [resolveOutP_gate g fuel p (s.mark p) hgate]
            rcases hpre with hpin | hinsvis | hpvis
            · exact absurd hpin hnotinp
            · -- own entity's inputs all already visited: leaf calls only
              have hinsvism : ∀ k ∈ List.range (g.ent p.1).numIn,
                  (s.mark p).vis (p.1, k) = true := by
                intro k hk
                exact mark_vis_of_vis s p _
                  (hinsvis k (List.mem_range.mp hk))
              have hfpos : 0 < fuel :=
                lt_of_le_of_lt (Nat.zero_le _) hcmark
              rw [resolveIns_visited g fuel p.1
                (List.range (g.ent p.1).numIn) (s.mark p) hfpos hinsvism]
              show ResOK g p s S
                (Except.ok (some (evalGate (g.ent p.1).kind
                  ((List.range (g.ent p.1).numIn).map
                    (fun k => (s.mark p).st (p.1, k))))),
                 (s.mark p).write p (some (evalGate (g.ent p.1).kind
                  ((List.range (g.ent p.1).numIn).map
                    (fun k => (s.mark p).st (p.1, k))))))
              refine resOK_write g p s S (s.mark p) _ hvisf
                (fun x hx => hx) (fun x _ => rfl) (goodS_mark s p S hgood)
                rfl ?_ ?_
              · intro x hxf hxt _
                rw [hxf] at hxt
                exact absurd hxt (by simp)
              · intro hn
                rw [hpartner] at hn
                exact absurd hn (by simp)
            · -- entered from the (visited) partner input
              have hstack1 : StackInv g (s.mark p) (p :: S) :=
                stackInv_mark g s p S hstack
                  (fun _ r hr => mark_vis_of_vis s p r (hpvis r hr))
              have hks : ∀ k ∈ List.range (g.ent p.1).numIn,
                  g.validP (p.1, k) ∧ g.isInp (p.1, k) := by
                intro k hk
                have hklt := List.mem_range.mp hk
                refine ⟨⟨hvalid.1, ?_⟩, hklt⟩
                show k < g.nports p.1
                unfold WGraph.nports
                omega
              have hres := ihIns p.1 (List.range (g.ent p.1).numIn)
                (s.mark p) (p :: S) hwf hcmark (goodS_mark s p S hgood)
                hstack1 hks
              obtain ⟨⟨vs, hvs⟩, hmono2, hstpres2, hgood2, huncon2⟩ := hres
              rw [hvs]
              show ResOK g p s S
                (Except.ok (some (evalGate (g.ent p.1).kind vs)),
                 ((resolveIns g fuel p.1 (List.range (g.ent p.1).numIn)
                   (s.mark p)).2).write p
                     (some (evalGate (g.ent p.1).kind vs)))
              refine resOK_write g p s S _ _ hvisf hmono2 hstpres2 hgood2
                rfl huncon2 ?_
              intro hn
              rw [hpartner] at hn
              exact absurd hn (by simp)

theorem resolveIns_cons_ok (g : WGraph) (fuel e k : Nat) (ks : List Nat)
    (s s2 s3 : RSt) (v : Option Bool) (vs : List (Option Bool))
    (h1 : resolveP g fuel (e, k) s = (Except.ok v, s2))
    (h2 : resolveIns g fuel e ks s2 = (Except.ok vs, s3)) :
    resolveIns g fuel e (k :: ks) s = (Except.ok (v :: vs), s3) := by
  simp only [resolveIns, h1, h2]

/-- The gate input loop preserves the invariants (same fuel as the
enclosing `resolveP` frame consumed). -/
theorem insStep (g : WGraph) (fuel : Nat) (ihMain : MainP g fuel) :
    InsP g fuel := by
  intro e ks
  induction ks with
  | nil =>
    intro s S hwf hfuel hgood hstack hks
    have heq : resolveIns g fuel e [] s = (Except.ok [], s) := by
      simp [resolveIns]
    rw [heq]
    exact ⟨⟨[], rfl⟩, fun x hx => hx, fun x _ => rfl, hgood,
      fun x hxf hxt _ => by simp [hxf] at hxt⟩
  | cons k rest ih =>
    intro s S hwf hfuel hgood hstack hks
    have hmain := ihMain (e, k) s S hwf hfuel hgood hstack
      (hks k (List.mem_cons_self _ _)).1
      (Or.inl (hks k (List.mem_cons_self _ _)).2)
    obtain ⟨⟨v, hv⟩, hmono1, hvis1, hstpres1, hgood1, _, _, huncon1⟩ :=
      hmain
    have hstack1 : StackInv g (resolveP g fuel (e, k) s).2 S := by
      intro x hx
      obtain ⟨h1, h2⟩ := hstack x hx
      exact ⟨hmono1 x h1, fun hni r hr => hmono1 r (h2 hni r hr)⟩
    have hfuel1 : unvisCount g (resolveP g fuel (e, k) s).2 < fuel :=
      lt_of_le_of_lt (unvisCount_le_of_mono g s _ hmono1) hfuel
    have hih := ih (resolveP g fuel (e, k) s).2 S hwf hfuel1 hgood1
      hstack1 (fun x hx => hks x (List.mem_cons_of_mem _ hx))
    obtain ⟨⟨vs, hvs⟩, hmono2, hstpres2, hgood2, huncon2⟩ := hih
    have hP : resolveP g fuel (e, k) s =
        (Except.ok v, (resolveP g fuel (e, k) s).2) := by rw [← hv]
    have hI : resolveIns g fuel e rest (resolveP g fuel (e, k) s).2 =
        (Except.ok vs,
          (resolveIns g fuel e rest (resolveP g fuel (e, k) s).2).2) := by
      rw [← hvs]
    have hstep : resolveIns g fuel e (k :: rest) s =
        (Except.ok (v :: vs),
          (resolveIns g fuel e rest (resolveP g fuel (e, k) s).2).2) :=
      resolveIns_cons_ok g fuel e k rest s _ _ v vs hP hI
    rw [hstep]
    refine ⟨⟨v :: vs, rfl⟩, ?_, ?_, hgood2, ?_⟩
    · intro x hx
      exact hmono2 x (hmono1 x hx)
    · intro x hx
      rw [hstpres2 x (hmono1 x hx), hstpres1 x hx]
    · intro x hxf hxt hxn
      cases hx2 : (resolveP g fuel (e, k) s).2.vis x with
      | true =>
        rw [hstpres2 x hx2]
        exact huncon1 x hxf hx2 hxn
      | false =>
        exact huncon2 x hx2 hxt hxn

/-- Every fuel level satisfies the main invariant (vacuously at zero,
since `unvisCount` is never negative). -/
theorem mainAll (g : WGraph) : ∀ fuel, MainP g fuel := by
  intro fuel
  induction fuel with
  | zero =>
    intro p s S _ hfuel _ _ _ _
    exact absurd hfuel (Nat.not_lt_zero _)
  | succ f ihf => exact mainStep g f ihf (insStep g f ihf)

theorem unvisCount_le_total (g : WGraph) (s : RSt) :
    unvisCount g s ≤ totalPorts g :=
  List.length_filter_le _ _

theorem passEnt_cons_ok (g : WGraph) (fuel e k : Nat) (ks : List Nat)
    (s s2 : RSt) (v : Option Bool)
    (h1 : resolveP g fuel (e, k) s = (Except.ok v, s2)) :
    passEnt g fuel e (k :: ks) s = passEnt g fuel e ks s2 := by
  simp only [passEnt, h1]

/-- The per-entity port loop of `resolve_wiring_network` succeeds and
visits every port it iterates, provided unvisited inputs of the entity
still lie ahead in the (strictly increasing) iteration order. -/
theorem passEnt_ok (g : WGraph) (fuel e : Nat) (hwf : WF g)
    (hfuel : totalPorts g < fuel) (he : e < g.ents.length) :
    ∀ (ks : List Nat) (s : RSt), GoodS s [] →
      (∀ k ∈ ks, k < g.nports e) →
      List.Pairwise (fun a b => a < b) ks →
      (∀ j, j < (g.ent e).numIn → s.vis (e, j) = true ∨ j ∈ ks) →
      ∃ s', passEnt g fuel e ks s = Except.ok s' ∧ PassOK g s s' ∧
        ∀ k ∈ ks, s'.vis (e, k) = true := by
  intro ks
  induction ks with
  | nil =>
    intro s hgood _ _ _
    exact ⟨s, rfl, ⟨fun x hx => hx, fun x _ => rfl, hgood,
      fun x hxf hxt _ => by simp [hxf] at hxt⟩,
      fun k hk => absurd hk (List.not_mem_nil k)⟩
  | cons k rest ih =>
    intro s hgood hbound hpair hinp
    have hfuel1 : unvisCount g s < fuel :=
      lt_of_le_of_lt (unvisCount_le_total g s) hfuel
    have hvalid : g.validP (e, k) :=
      ⟨he, hbound k (List.mem_cons_self _ _)⟩
    have hpre : PreP g s (e, k) := by
      by_cases hk : k < (g.ent e).numIn
      · exact Or.inl hk
      · refine Or.inr (Or.inl ?_)
        intro j hj
        rcases hinp j hj with h | h
        · exact h
        · rcases List.mem_cons.mp h with hjk | hjr
          · exact absurd (show k < (g.ent e).numIn from hjk ▸ hj) hk
          · have h1 : k < j := (List.pairwise_cons.mp hpair).1 j hjr
            have h2 : j < (g.ent e).numIn := hj
            omega
    have hmain := mainAll g fuel (e, k) s [] hwf hfuel1 hgood
      (fun q hq => absurd hq (List.not_mem_nil q)) hvalid hpre
    obtain ⟨⟨v, hv⟩, hmono1, hvis1, hstpres1, hgood1, _, _, huncon1⟩ :=
      hmain
    have hP : resolveP g fuel (e, k) s =
        (Except.ok v, (resolveP g fuel (e, k) s).2) := by rw [← hv]
    have hstep : passEnt g fuel e (k :: rest) s =
        passEnt g fuel e rest (resolveP g fuel (e, k) s).2 :=
      passEnt_cons_ok g fuel e k rest s _ v hP
    have hinp2 : ∀ j, j < (g.ent e).numIn →
        (resolveP g fuel (e, k) s).2.vis (e, j) = true ∨ j ∈ rest := by
      intro j hj
      rcases hinp j hj with h | h
      · exact Or.inl (hmono1 _ h)
      · rcases List.mem_cons.mp h with hjk | hjr
        · subst hjk
          exact Or.inl hvis1
        · exact Or.inr hjr
    obtain ⟨s', hrun, ⟨hmono2, hstpres2, hgood2, huncon2⟩, hvisall⟩ :=
      ih (resolveP g fuel (e, k) s).2 hgood1
        (fun x hx => hbound x (List.mem_cons_of_mem _ hx))
        (List.pairwise_cons.mp hpair).2 hinp2
    refine ⟨s', ?_, ⟨?_, ?_, hgood2, ?_⟩, ?_⟩
    · rw [hstep]
      exact hrun
    · intro x hx
      exact hmono2 x (hmono1 x hx)
    · intro x hx
      rw [hstpres2 x (hmono1 x hx), hstpres1 x hx]
    · intro x hxf hxt hxn
      cases hx2 : (resolveP g fuel (e, k) s).2.vis x with
      | true =>
        rw [hstpres2 x hx2]
        exact huncon1 x hxf hx2 hxn
      | false => exact huncon2 x hx2 hxt hxn
    · intro q hq
      rcases List.mem_cons.mp hq with hqk | hqr
      · subst hqk
        exact hmono2 _ hvis1
      · exact hvisall q hqr

/-- The outer entity loop succeeds and visits every port of every
entity it processes. -/
theorem passAll_ok (g : WGraph) (fuel : Nat) (hwf : WF g)
    (hfuel : totalPorts g < fuel) :
    ∀ (es : List Nat) (s : RSt), GoodS s [] →
      (∀ e ∈ es, e < g.ents.length) →
      ∃ s', passAll g fuel es s = Except.ok s' ∧ PassOK g s s' ∧
        ∀ e ∈ es, ∀ k, k < g.nports e → s'.vis (e, k) = true := by
  intro es
  induction es with
  | nil =>
    intro s hgood _
    exact ⟨s, rfl, ⟨fun x hx => hx, fun x _ => rfl, hgood,
      fun x hxf hxt _ => by simp [hxf] at hxt⟩,
      fun e he => absurd he (List.not_mem_nil e)⟩
  | cons e es ih =>
    intro s hgood hbound
    have hent := passEnt_ok g fuel e hwf hfuel
      (hbound e (List.mem_cons_self _ _))
      (List.range (g.nports e)) s hgood
      (fun k hk => List.mem_range.mp hk)
      (List.pairwise_lt_range _)
      (fun j hj => Or.inr (List.mem_range.mpr
        (lt_of_lt_of_le hj (Nat.le_add_right _ _))))
    obtain ⟨s2, hrun1, ⟨hmono1, hstpres1, hgood1, huncon1⟩, hvis1⟩ :=
      hent
    have hstep : passAll g fuel (e :: es) s = passAll g fuel es s2 := by
      simp only [passAll, hrun1]
    obtain ⟨s', hrun2, ⟨hmono2, hstpres2, hgood2, huncon2⟩, hvis2⟩ :=
      ih s2 hgood1 (fun x hx => hbound x (List.mem_cons_of_mem _ hx))
    refine ⟨s', ?_, ⟨?_, ?_, hgood2, ?_⟩, ?_⟩
    · rw [hstep]
      exact hrun2
    · intro x hx
      exact hmono2 x (hmono1 x hx)
    · intro x hx
      rw [hstpres2 x (hmono1 x hx), hstpres1 x hx]
    · intro x hxf hxt hxn
      cases hx2 : s2.vis x with
      | true =>
        rw [hstpres2 x hx2]
        exact huncon1 x hxf hx2 hxn
      | false => exact huncon2 x hx2 hxt hxn
    · intro a ha k hk
      rcases List.mem_cons.mp ha with hae | haes
      · subst hae
        exact hmono2 _ (hvis1 k (List.mem_range.mpr hk))
      · exact hvis2 a haes k hk

/-- C3: on every well-formed wiring graph — feedback cycles included,
the `ports_visited` flag short-circuiting the recursion —
`resolve_wiring_network`'s resolution pass terminates without
exhausting its recursion bound, and afterwards every port of every
Wirable holds a boolean port state (no `None` left), with every
unconnected port resolved to `false` (floating = LOW). -/
theorem wiring_resolution_total_and_floating_low (g : WGraph)
    (hwf : WF g) :
    ∃ s, resolveWiringPass g = Except.ok s ∧
      (∀ p, g.validP p → (s.st p).isSome = true) ∧
      (∀ p, g.validP p → g.partner p = none → s.st p = some false) := by
  obtain ⟨s', hrun, ⟨hmono, hstp, hgood, huncon⟩, hvisall⟩ :=
    passAll_ok g (totalPorts g + 1) hwf (Nat.lt_succ_self _)
      (List.range g.ents.length) initSt
      (fun p hp _ => absurd hp (by simp [initSt]))
      (fun e he => List.mem_range.mp he)
  refine ⟨s', hrun, ?_, ?_⟩
  · intro p hp
    exact hgood p (hvisall p.1 (List.mem_range.mpr hp.1) p.2 hp.2)
      (List.not_mem_nil p)
  · intro p hp hnone
    exact huncon p rfl
      (hvisall p.1 (List.mem_range.mpr hp.1) p.2 hp.2) hnone

theorem wiring_resolution_total_and_floating_low_witness :
    WF cycleG ∧
      ∃ s, resolveWiringPass cycleG = Except.ok s ∧
        (∀ p, cycleG.validP p → (s.st p).isSome = true) ∧
        (∀ p, cycleG.validP p → cycleG.partner p = none →
          s.st p = some false) :=
  ⟨by unfold WF; decide,
   wiring_resolution_total_and_floating_low cycleG (by unfold WF; decide)⟩
